import Mathlib

/-!
Gophercises: the link parser (exercise 4) and the sitemap crawler (exercise 5).

A shallow embedding of `src/5/linkParser/linkParser.go` (the same code as
`src/4/main.go`) and of the crawl loop of `src/5/main.go`.

Go strings are embedded as Lean strings and handled through their character
lists.  Go slices used as stacks and queues are embedded as lists, with the
capacity kept as a number where the code slices above the length.  A runtime
panic of the Go program is the value `none`.
-/

namespace Gophercises

/-! ## Strings: `strings.Split`, `strings.TrimSpace`, `strings.Join` -/

/-- Go's `unicode.IsSpace`: in Latin-1 the characters tab, newline, vertical
tab, form feed, carriage return, space, U+0085 and U+00A0; elsewhere the
characters with the White_Space property (U+1680, U+2000 to U+200A, U+2028,
U+2029, U+202F, U+205F, U+3000). -/
def isSpace (c : Char) : Bool :=
  c = '\t' || c = '\n' || c = '\x0b' || c = '\x0c' || c = '\r' || c = ' ' ||
  c = '\u0085' || c = '\u00a0' || c = '\u1680' ||
  (0x2000 ≤ c.toNat && c.toNat ≤ 0x200a) ||
  c = '\u2028' || c = '\u2029' || c = '\u202f' || c = '\u205f' || c = '\u3000'

/-- Go's `strings.Split(s, sep)` for a separator of one character: the pieces of
`s` between the occurrences of `sep` (one piece more than there are
occurrences; the empty string gives one empty piece). -/
def split (sep : Char) : List Char → List (List Char)
  | [] => [[]]
  | c :: cs =>
    if c = sep then [] :: split sep cs
    else
      match split sep cs with
      | [] => [[c]]
      | p :: ps => (c :: p) :: ps

/-- The string without its trailing white space. -/
def trimRight (s : List Char) : List Char :=
  s.rdropWhile isSpace

/-- Go's `strings.TrimSpace`: the string without leading and trailing white
space. -/
def TrimSpace (s : List Char) : List Char :=
  trimRight (s.dropWhile isSpace)

/-- Go's `strings.Join(parts, sep)` for a separator of one character. -/
def Join (sep : Char) : List (List Char) → List Char
  | [] => []
  | [p] => p
  | p :: q :: ps => p ++ sep :: Join sep (q :: ps)

/-- The pieces of `a ++ b` from the pieces of `a` and of `b`: the last piece of
`a` and the first piece of `b` become one piece (used in the proofs on
`split`). -/
def glue : List (List Char) → List (List Char) → List (List Char)
  | [], B => B
  | [x], [] => [x]
  | [x], y :: B => (x ++ y) :: B
  | x :: x' :: A, B => x :: glue (x' :: A) B

/-- The loop of `cleanText`: the trimmed pieces, in order, without those that
are empty after trimming. -/
def cleanParts : List (List Char) → List (List Char)
  | [] => []
  | part :: rest =>
    let withoutSpaces := TrimSpace part
    if withoutSpaces.length > 0 then withoutSpaces :: cleanParts rest
    else cleanParts rest

/-- `cleanText` of linkParser.go, on character lists. -/
def cleanChars (text : List Char) : List Char :=
  Join ' ' (cleanParts (split ' ' text))

/-- `cleanText` of linkParser.go (lines 37-49). -/
def cleanText (text : String) : String :=
  String.mk (cleanChars text.data)

/-! ## The link extractor: `StreamLinks` of linkParser.go -/

/-- The `Link` struct of linkParser.go. -/
structure Link where
  Href : String
  Text : String
deriving DecidableEq, Repr

/-- The token types of `golang.org/x/net/html`. -/
inductive TokenType where
  | ErrorToken
  | TextToken
  | StartTagToken
  | EndTagToken
  | SelfClosingTagToken
  | CommentToken
  | DoctypeToken
deriving DecidableEq, Repr

/-- An `html.Attribute`. -/
structure Attribute where
  Namespace : String
  Key : String
  Val : String
deriving DecidableEq, Repr

/-- An `html.Token`; `Typ` is the field `Type` of the Go struct. -/
structure Token where
  Typ : TokenType
  DataAtom : Nat
  Data : String
  Attr : List Attribute
deriving DecidableEq, Repr

/-- The atom of the tag name `a` (`atom.A`). -/
def atom.A : Nat := 1

/-- The attributes that `getTagAttributes` still delivers after `stopStream` was
closed.  Its producer selects between the closed `stopStream` and the send to a
waiting receiver, so it may deliver up to `extra` further attributes before it
returns.  A further `href` among them makes the receiver run
`close(stopStream)` a second time, which panics (`none`). -/
def drainAttributes : Nat → List Attribute → Option Unit
  | 0, _ => some ()
  | _ + 1, [] => some ()
  | extra + 1, attr :: rest =>
    if attr.Key = "href" then none else drainAttributes extra rest

/-- The loop over `getTagAttributes` in the start-tag case (lines 64-71), with the
context not cancelled: `some (some v)` when the first `href` attribute has value
`v` (it is appended to `anchorStack`), `some none` when the tag has no `href`,
`none` when the loop panics. -/
def scanAttributes (extra : Nat) : List Attribute → Option (Option String)
  | [] => some none
  | attr :: rest =>
    if attr.Key = "href" then
      (drainAttributes extra rest).map (fun _ => some attr.Val)
    else scanAttributes extra rest

/-- The variables `anchorStack`, `textStack` and `current` of `StreamLinks`.  The
stacks grow at the end of the list, as `append` does.  `current` is a Go `int`;
it changes by one per token, so it stays far from the bounds of 64 bits. -/
structure ParserState where
  anchorStack : List String
  textStack : List String
  current : Int
deriving DecidableEq, Repr

/-- The closure `parseToken` of `StreamLinks` (lines 60-105): the new state and
the links sent on the channel, or `none` when the Go code panics (an index or a
slice bound out of range, or a second `close(stopStream)`).  `extra` resolves the
race in `getTagAttributes`.  The slice expressions `textStack[:current]` and
`anchorStack[:current]` are only met with `current` at most the length, so they
never reach into the spare capacity; above the length they are given as a
panic. -/
def parseToken (extra : Nat) (s : ParserState) (token : Token) :
    Option (ParserState × List Link) :=
  match token.Typ with
  | TokenType.StartTagToken =>
    if token.DataAtom = atom.A then
      match scanAttributes extra token.Attr with
      | none => none
      | some href =>
        some ({ anchorStack := s.anchorStack ++ href.toList,
                textStack := s.textStack ++ [""],
                current := s.current + 1 }, [])
    else some (s, [])
  | TokenType.EndTagToken =>
    if token.DataAtom = atom.A then
      if s.anchorStack.length = 0 then
        if s.current = 0 then
          if 1 ≤ s.textStack.length then
            some ({ s with textStack := s.textStack.drop 1, current := s.current - 1 }, [])
          else none
        else
          if 0 ≤ s.current ∧ s.current.toNat ≤ s.textStack.length then
            some ({ s with textStack := s.textStack.take s.current.toNat,
                           current := s.current - 1 }, [])
          else none
      else
        if 0 ≤ s.current then
          match s.anchorStack[s.current.toNat]?, s.textStack[s.current.toNat]? with
          | some href, some anchorText =>
            some ({ anchorStack := s.anchorStack.take s.current.toNat,
                    textStack := s.textStack.take s.current.toNat,
                    current := s.current - 1 },
                  [{ Href := href, Text := cleanText anchorText }])
          | _, _ => none
        else none
    else some (s, [])
  | TokenType.TextToken =>
    if s.textStack.length > 0 then
      if 0 ≤ s.current then
        match s.textStack[s.current.toNat]? with
        | some text =>
          some ({ s with textStack := s.textStack.set s.current.toNat (text ++ token.Data) }, [])
        | none => none
      else none
    else some (s, [])
  | _ => some (s, [])

/-- The token loop of `StreamLinks` (lines 107-119) from state `s`: the links
sent, in order, and whether the goroutine panicked (which ends the whole
process).  `extras` gives, token by token, the race outcome handed to
`parseToken` (0 once the list is used up). -/
def parseTokens : List Nat → ParserState → List Token → List Link × Bool
  | _, _, [] => ([], false)
  | extras, s, token :: rest =>
    match parseToken (extras.headD 0) s token with
    | none => ([], true)
    | some (s', out) =>
      let r := parseTokens extras.tail s' rest
      (out ++ r.1, r.2)

/-- `StreamLinks` of linkParser.go (lines 51-123) on a finite token sequence, the
context not cancelled. -/
def StreamLinks (extras : List Nat) (tokens : List Token) : List Link × Bool :=
  parseTokens extras { anchorStack := [], textStack := [], current := -1 } tokens

/-! ### The extraction as the specification words it -/

/-- A start tag of an `a` element. -/
def isStartA (t : Token) : Bool :=
  t.Typ = TokenType.StartTagToken && t.DataAtom = atom.A

/-- An end tag of an `a` element. -/
def isEndA (t : Token) : Bool :=
  t.Typ = TokenType.EndTagToken && t.DataAtom = atom.A

/-- The number of `href` attributes of a token. -/
def hrefCount (t : Token) : Nat :=
  (t.Attr.filter (fun a => a.Key = "href")).length

/-- The value of the first `href` attribute of a token, if it has one. -/
def hrefValue (t : Token) : Option String :=
  (t.Attr.find? (fun a => a.Key = "href")).map (fun a => a.Val)

/-- One open anchor element: its `href` value, if the start tag had one, and
the text gathered while it was the innermost open anchor. -/
structure AnchorFrame where
  href : Option String
  text : String
deriving DecidableEq, Repr

/-- The links of a token sequence as the specification describes them, with one
stack of frames (innermost first): a start tag `a` opens a frame, a text token
is added to the innermost frame, an end tag `a` closes the innermost frame and
gives its link when the frame has an `href`. -/
def specLinks : List AnchorFrame → List Token → List Link
  | _, [] => []
  | stack, t :: rest =>
    if isStartA t then
      specLinks ({ href := hrefValue t, text := "" } :: stack) rest
    else if isEndA t then
      match stack with
      | [] => specLinks [] rest
      | f :: below =>
        (match f.href with
          | some h => [{ Href := h, Text := cleanText f.text }]
          | none => []) ++ specLinks below rest
    else if t.Typ = TokenType.TextToken then
      match stack with
      | [] => specLinks [] rest
      | f :: below => specLinks ({ f with text := f.text ++ t.Data } :: below) rest
    else specLinks stack rest

/-- The token sequences of claim C2, read with `depth` anchors open: every `a`
end tag closes an open anchor and every `a` start tag carries an `href`
attribute (at least one). -/
def wellNested : Nat → List Token → Bool
  | _, [] => true
  | depth, t :: rest =>
    if isStartA t then 1 ≤ hrefCount t && wellNested (depth + 1) rest
    else if isEndA t then 0 < depth && wellNested (depth - 1) rest
    else wellNested depth rest

/-- The narrower token sequences on which the attribute loop cannot close
`stopStream` twice: as `wellNested`, with exactly one `href` attribute on every
`a` start tag. -/
def wellNestedSingle : Nat → List Token → Bool
  | _, [] => true
  | depth, t :: rest =>
    if isStartA t then hrefCount t = 1 && wellNestedSingle (depth + 1) rest
    else if isEndA t then 0 < depth && wellNestedSingle (depth - 1) rest
    else wellNestedSingle depth rest

/-- The state of `StreamLinks` that stands for a stack of frames (innermost
first): the `href` values that are present on `anchorStack`, the texts on
`textStack`, and `current` at the top frame. -/
def stateOf (stack : List AnchorFrame) : ParserState :=
  { anchorStack := (stack.filterMap (fun f => f.href)).reverse,
    textStack := (stack.map (fun f => f.text)).reverse,
    current := (stack.length : Int) - 1 }

/-- A start tag `a` with the given attributes. -/
def startA (attrs : List Attribute) : Token :=
  { Typ := TokenType.StartTagToken, DataAtom := atom.A, Data := "a", Attr := attrs }

/-- A start tag `a` whose only attribute is `href` with value `v`. -/
def startHref (v : String) : Token :=
  startA [{ Namespace := "", Key := "href", Val := v }]

/-- An end tag `a`. -/
def endA : Token :=
  { Typ := TokenType.EndTagToken, DataAtom := atom.A, Data := "a", Attr := [] }

/-- A text token. -/
def textToken (data : String) : Token :=
  { Typ := TokenType.TextToken, DataAtom := 0, Data := data, Attr := [] }

/-- The tokens of `<a href="/dog">outer <a href="/dog/golden">golden</a> retriever</a>`. -/
def dogTokens : List Token :=
  [startHref "/dog", textToken "outer ", startHref "/dog/golden", textToken "golden",
   endA, textToken " retriever", endA]

/-- The tokens of `<a href="/x" href="/y">t</a>`: the tokenizer keeps both
attributes of the start tag. -/
def doubleHrefTokens : List Token :=
  [startA [{ Namespace := "", Key := "href", Val := "/x" },
           { Namespace := "", Key := "href", Val := "/y" }],
   textToken "t", endA]

/-! ## The crawler: `streamUrls` and `main` of src/5/main.go -/

/-- The operations of Go's `net/url` that the crawler uses, on a type `U` of
parsed URLs: `UrlParse raw` is `url.Parse(raw)`, `Parse base ref` is
`base.Parse(ref)` (the reference resolved against `base`), both `none` for an
error, `Hostname u` is `u.Hostname()` and `Str u` is `u.String()`. -/
structure UrlLib (U : Type) where
  UrlParse : String → Option U
  Parse : U → String → Option U
  Hostname : U → String
  Str : U → String

/-- The loop body of `streamUrls` (lines 77-88) over the links of one page: a
link whose `Href` does not resolve against `baseUrl` is skipped, as is one
whose host name differs from that of `baseUrl`; the others are sent as
strings. -/
def resolveLinks {U : Type} (lib : UrlLib U) (baseUrl : U) : List Link → List String
  | [] => []
  | link :: rest =>
    match lib.Parse baseUrl link.Href with
    | none => resolveLinks lib baseUrl rest
    | some parsedUrl =>
      if lib.Hostname parsedUrl = lib.Hostname baseUrl then
        lib.Str parsedUrl :: resolveLinks lib baseUrl rest
      else resolveLinks lib baseUrl rest

/-- `streamUrls` of main.go (lines 70-92), the context not cancelled.  `tokens`
gives the tokens that `streamHtmlTokens` reads from a page (none when the fetch
fails) and `extras` the race outcomes of the extractor on that page.  The
result is `none` when the extractor panics, which ends the process. -/
def streamUrls {U : Type} (lib : UrlLib U) (tokens : String → List Token)
    (extras : String → List Nat) (entrypoint : String) (baseUrl : U) :
    Option (List String) :=
  let r := StreamLinks (extras entrypoint) (tokens entrypoint)
  if r.2 then none else some (resolveLinks lib baseUrl r.1)

/-- The variables of the loop of `main`: the keys of the map `seen` (latest
first), the elements of the slice `queue`, its capacity, and the URLs handed to
a `crawler` goroutine so far, in order (the lines `Visit ...` of the output).
The backing array of `queue` is written only by `append`, at the index of the
length, so the slots between length and capacity hold the empty string. -/
structure CrawlState where
  seen : List String
  queue : List String
  cap : Nat
  visited : List String
deriving DecidableEq, Repr

/-- Lines 130-132: `queue := make([]string, W, 10_000)` and `queue[0] = entry`.
`make` panics when `W` exceeds the capacity, the assignment when `W` is 0. -/
def init (W : Nat) (entryPoint : String) : Option CrawlState :=
  if 1 ≤ W ∧ W ≤ 10000 then
    some { seen := [], queue := entryPoint :: List.replicate (W - 1) "",
           cap := 10000, visited := [] }
  else none

/-- The expression `queue[:W]` of line 145: Go allows a slice up to the
capacity, so the batch is the first `W` elements of the queue, filled up with
the empty strings of the spare slots; it panics when `W` exceeds the capacity. -/
def batchOf (W : Nat) (st : CrawlState) : Option (List String) :=
  if W ≤ st.cap then
    some (st.queue.take W ++ List.replicate (W - st.queue.length) "")
  else none

/-- The loop over the batch (lines 148-161): the new keys of `seen` and the URLs
for which a `crawler` goroutine is started, in order. -/
def dispatch : List String → List String → List String × List String
  | [], seen => (seen, [])
  | url :: rest, seen =>
    if url = "" ∨ url ∈ seen then dispatch rest seen
    else
      let r := dispatch rest (url :: seen)
      (r.1, url :: r.2)

/-- What the workers of a batch send: for each dispatched URL the list that
`streamUrls` yields for it, `none` if one of them panics. -/
def workerOutputs (site : String → Option (List String)) :
    List String → Option (List (List String))
  | [] => some []
  | url :: rest =>
    match site url, workerOutputs site rest with
    | some urls, some others => some (urls :: others)
    | _, _ => none

/-- The head of the `i`-th list, and the lists with that head removed. -/
def pick : Nat → List (List String) → Option (String × List (List String))
  | _, [] => none
  | 0, [] :: _ => none
  | 0, (x :: xs) :: ws => some (x, xs :: ws)
  | i + 1, w :: ws => (pick i ws).map (fun r => (r.1, w :: r.2))

/-- The receive loop on the unbuffered channel `newUrls` for `fuel` receives:
each worker sends its URLs in order, and which of the workers that still have a
URL to send gets through next is decided by the next number of `choices`
(0 once the list is used up). -/
def mergeFuel : Nat → List Nat → List (List String) → List String
  | 0, _, _ => []
  | fuel + 1, choices, outs =>
    let live := outs.filter (fun l => !l.isEmpty)
    match pick (choices.headD 0 % live.length) live with
    | none => []
    | some (x, live') => x :: mergeFuel fuel choices.tail live'

/-- The order in which the control loop receives the URLs of a batch. -/
def merge (choices : List Nat) (outs : List (List String)) : List String :=
  mergeFuel (outs.map List.length).sum choices outs

/-- One `queue = append(queue, url)` (line 169) on the elements and the
capacity: within the capacity the array is kept, beyond it the runtime
allocates one of capacity `grow cap (len + 1)`. -/
def appendQueue (grow : Nat → Nat → Nat) (q : List String × Nat) (url : String) :
    List String × Nat :=
  (q.1 ++ [url], if q.1.length < q.2 then q.2 else grow q.2 (q.1.length + 1))

/-- One iteration of the loop of `main` (lines 145-176), `none` for a panic.
`site url` is what `streamUrls` yields for `url`, `grow` the growth rule of
`append`, `choices` the order in which the workers of this batch report. -/
def iteration (W : Nat) (site : String → Option (List String)) (grow : Nat → Nat → Nat)
    (choices : List Nat) (st : CrawlState) : Option CrawlState :=
  match batchOf W st with
  | none => none
  | some batch =>
    let d := dispatch batch st.seen
    match workerOutputs site d.2 with
    | none => none
    | some outs =>
      let q := (merge choices outs).foldl (appendQueue grow) (st.queue, st.cap)
      if W ≤ q.1.length then
        some { seen := d.1, queue := q.1.drop W, cap := q.2 - W,
               visited := st.visited ++ d.2 }
      else if 1 ≤ q.1.length then
        some { seen := d.1, queue := q.1.drop 1, cap := q.2 - 1,
               visited := st.visited ++ d.2 }
      else none

/-- The loop `for len(queue) > 0` of `main` for at most `n` iterations; `sched`
holds the report order of each batch. -/
def iterations (W : Nat) (site : String → Option (List String)) (grow : Nat → Nat → Nat) :
    List (List Nat) → Nat → CrawlState → Option CrawlState
  | _, 0, st => some st
  | sched, n + 1, st =>
    if 0 < st.queue.length then
      match iteration W site grow (sched.headD []) st with
      | none => none
      | some st' => iterations W site grow sched.tail n st'
    else some st

/-- How a run of `main` ends within a number of iterations. -/
inductive Exit where
  | sitemap (seen : List String)
  | panic
  | fatal
  | unfinished
deriving DecidableEq, Repr

/-- The crawl of `main` (lines 130-179) with at most `fuel` iterations of the
loop: the keys of `seen` handed to `generateSitemapFile`, or a panic. -/
def crawl (W : Nat) (site : String → Option (List String)) (grow : Nat → Nat → Nat)
    (entryPoint : String) (sched : List (List Nat)) (fuel : Nat) : Exit :=
  match init W entryPoint with
  | none => Exit.panic
  | some st0 =>
    match iterations W site grow sched fuel st0 with
    | none => Exit.panic
    | some st => if 0 < st.queue.length then Exit.unfinished else Exit.sitemap st.seen

/-- The closure `crawler` of `main` (lines 136-142): what the worker for `url`
sends, which is what `streamUrls` yields for `url` with `entryPointUrl` as its
`baseUrl`. -/
def crawler {U : Type} (lib : UrlLib U) (tokens : String → List Token)
    (extras : String → List Nat) (entryPointUrl : U) (url : String) :
    Option (List String) :=
  streamUrls lib tokens extras url entryPointUrl

/-- The function `main` of main.go (lines 115-180) with `W` workers on the entry
point `entryPoint`: `log.Fatalf` when the entry point does not parse, otherwise
the crawl with the workers running `crawler`. -/
def main {U : Type} (lib : UrlLib U) (tokens : String → List Token)
    (extras : String → List Nat) (W : Nat) (grow : Nat → Nat → Nat) (entryPoint : String)
    (sched : List (List Nat)) (fuel : Nat) : Exit :=
  match lib.UrlParse entryPoint with
  | none => Exit.fatal
  | some entryPointUrl =>
    crawl W (crawler lib tokens extras entryPointUrl) grow entryPoint sched fuel

/-- A URL reached from a link: the string of a URL that some link of some page
resolves to against `baseUrl` and that has the host name of `baseUrl`. -/
def SameHostLink {U : Type} (lib : UrlLib U) (tokens : String → List Token)
    (extras : String → List Nat) (baseUrl : U) (u : String) : Prop :=
  ∃ page, ∃ link ∈ (StreamLinks (extras page) (tokens page)).1, ∃ p,
    lib.Parse baseUrl link.Href = some p ∧ lib.Hostname p = lib.Hostname baseUrl ∧
    u = lib.Str p

/-- The site of the end-to-end scenario: `A` links to `B` and `C`, `B` to `A`
and `D`, `C` to `D`. -/
def siteABCD (url : String) : Option (List String) :=
  if url = "A" then some ["B", "C"]
  else if url = "B" then some ["A", "D"]
  else if url = "C" then some ["D"]
  else some []

/-- A site on which the report order matters: `A` links to `B` and `C`, `B` to
`D`, `C` to `E`. -/
def siteFork (url : String) : Option (List String) :=
  if url = "A" then some ["B", "C"]
  else if url = "B" then some ["D"]
  else if url = "C" then some ["E"]
  else some []

/-- A small URL type for the examples: host and path of an `http` URL. -/
structure Url where
  Host : String
  Path : String
deriving DecidableEq, Repr

/-- Whether a reference has a control character, which `net/url` rejects. -/
def hasControl (r : List Char) : Bool :=
  r.any (fun c => c.toNat < 0x20 || c.toNat = 0x7f)

/-- Parsing of `http://host/path` for the examples. -/
def sampleUrlParse (raw : String) : Option Url :=
  if hasControl raw.data then none
  else if "http://".data.isPrefixOf raw.data then
    let rest := raw.data.drop 7
    some { Host := String.mk (rest.takeWhile (fun c => c ≠ '/')),
           Path := String.mk (rest.dropWhile (fun c => c ≠ '/')) }
  else none

/-- Resolution of a reference for the examples: an absolute `http` URL stands
for itself, the empty reference for the base, a reference that starts with `/`
replaces the path, and any other replaces what follows the last `/` of the
path of the base. -/
def sampleResolve (base : Url) (ref : String) : Option Url :=
  if hasControl ref.data then none
  else if "http://".data.isPrefixOf ref.data then sampleUrlParse ref
  else if ref.data = [] then some base
  else if ref.data.head? = some '/' then some { base with Path := ref }
  else
    let dir := base.Path.data.rdropWhile (fun c => c ≠ '/')
    some { base with Path := String.mk ((if dir = [] then ['/'] else dir) ++ ref.data) }

/-- The URL operations for the examples. -/
def sampleLib : UrlLib Url :=
  { UrlParse := sampleUrlParse, Parse := sampleResolve, Hostname := fun u => u.Host,
    Str := fun u => "http://" ++ u.Host ++ u.Path }

/-- The pages of a small site: the entry page `http://h/` links to `dir/page`
and to another host, the page `http://h/dir/page` has the relative link `x`. -/
def samplePages (url : String) : List Token :=
  if url = "http://h/" then
    [startHref "dir/page", textToken "page", endA, startHref "http://other/z", endA]
  else if url = "http://h/dir/page" then [startHref "x", textToken "x", endA]
  else []

/-- No attribute is delivered after `stopStream` is closed. -/
def noExtras (_ : String) : List Nat := []

/-- A growth rule for `append`: double the capacity, at least the needed
length. -/
def growDouble (cap needed : Nat) : Nat := max (2 * cap) needed

/-- The text of `cleanText` as the specification words it: the text split on the
space character, every piece trimmed, the pieces that are then empty dropped,
and the others joined with single spaces. -/
def specCleanText (text : String) : String :=
  String.mk ([' '].intercalate
    (((split ' ' text.data).map TrimSpace).filter (fun p => !p.isEmpty)))

/-- The variables of `StreamLinks` after the tokens have been processed from the
state `s`, `none` when one of the tokens makes `parseToken` panic. -/
def stateAfter : List Nat → ParserState → List Token → Option ParserState
  | _, s, [] => some s
  | extras, s, token :: rest =>
    match parseToken (extras.headD 0) s token with
    | none => none
    | some (s', _) => stateAfter extras.tail s' rest

/-- What `streamUrls` yields for every URL once the context is cancelled:
`http.DefaultClient.Do` fails, `streamHtmlTokens` closes its channel without a
token, and `StreamLinks` ends without a link. -/
def cancelled (_ : String) : Option (List String) := some []

/-- A site of one page: the page `A` has `n` links, all of them to `A`. -/
def siteSelfLinks (n : Nat) (url : String) : Option (List String) :=
  if url = "A" then some (List.replicate n "A") else some []

/-- The URLs reachable from `entry` by following links on the site: `entry`
itself, and every URL that the site yields for a reachable URL. -/
inductive Reachable (site : String → Option (List String)) (entry : String) :
    String → Prop where
  | start : Reachable site entry entry
  | step (u v : String) (l : List String) :
      Reachable site entry u → site u = some l → v ∈ l → Reachable site entry v

/-- Every member of the list `seen` (latest first) is `entry` or was yielded by
the site for a URL that stands later in the list, that is, for one that came into
`seen` earlier. -/
def YieldedFromEarlier (site : String → Option (List String)) (entry : String) :
    List String → Prop
  | [] => True
  | u :: earlier =>
    (u = entry ∨ ∃ p ∈ earlier, ∃ l, site p = some l ∧ u ∈ l) ∧
      YieldedFromEarlier site entry earlier

/-- The site given by the links of each page, with workers that do not panic. -/
def siteOf (links : String → List String) (url : String) : Option (List String) :=
  some (links url)

/-- The first occurrence of every element of a list, in the order of the list. -/
def firstOccurrences : List String → List String
  | [] => []
  | x :: xs => x :: (firstOccurrences xs).filter (fun y => y ≠ x)

/-- The number of links on the pages of `pages` that are not in `seen` (used to
bound the number of iterations). -/
def pending (links : String → List String) (pages seen : List String) : Nat :=
  ((pages.filter (fun u => u ∉ seen)).map (fun u => (links u).length)).sum

/-- The state of the crawl with one worker: every URL in `queue` is a page of the
site, `seen` holds the dispatched URLs, the URLs put into the queue so far (the
entry URL, then the links of the dispatched URLs in the order of dispatch) are
the URLs removed from the queue followed by the queue, the dispatched URLs are
the first occurrences among the removed ones, and the queue fits its capacity. -/
def BfsInv (links : String → List String) (entry : String) (pages : List String)
    (st : CrawlState) : Prop :=
  (∀ u ∈ st.queue, u ∈ pages) ∧ (∀ u, u ∈ st.seen ↔ u ∈ st.visited) ∧
  (∃ popped, entry :: st.visited.flatMap links = popped ++ st.queue ∧
    st.visited = firstOccurrences popped) ∧
  st.queue.length ≤ st.cap

/-- The links of the end-to-end scenario. -/
def linksABCD (url : String) : List String :=
  if url = "A" then ["B", "C"]
  else if url = "B" then ["A", "D"]
  else if url = "C" then ["D"]
  else []

/-! ## Lemmas on `split`, `TrimSpace`, `Join` and `cleanText` -/

theorem split_ne_nil (sep : Char) (s : List Char) : split sep s ≠ [] := by
  induction s with
  | nil => simp [split]
  | cons c cs ih =>
    unfold split
    split_ifs
    · simp
    · split <;> simp

theorem split_eq_cons (sep : Char) (s : List Char) : ∃ p ps, split sep s = p :: ps := by
  cases h : split sep s with
  | nil => exact absurd h (split_ne_nil sep s)
  | cons p ps => exact ⟨p, ps, rfl⟩

theorem split_cons_sep (sep : Char) (cs : List Char) :
    split sep (sep :: cs) = [] :: split sep cs := by
  simp [split]

theorem split_cons_ne (sep c : Char) (cs p : List Char) (ps : List (List Char))
    (h : c ≠ sep) (hs : split sep cs = p :: ps) :
    split sep (c :: cs) = (c :: p) :: ps := by
  simp [split, h, hs]

theorem split_append (sep : Char) (a b : List Char) :
    split sep (a ++ b) = glue (split sep a) (split sep b) := by
  obtain ⟨y, B, hb⟩ := split_eq_cons sep b
  induction a with
  | nil => simp [split, glue, hb]
  | cons c a ih =>
    obtain ⟨x, A, ha⟩ := split_eq_cons sep a
    rw [ha] at ih
    rw [List.cons_append]
    by_cases hc : c = sep
    · subst hc
      rw [split_cons_sep, split_cons_sep, ih, ha]
      simp [glue]
    · cases A with
      | nil =>
        rw [hb] at ih
        rw [split_cons_ne sep c _ _ _ hc ih, split_cons_ne sep c _ _ _ hc ha, hb]
        simp [glue]
      | cons x' A =>
        have ih' : split sep (a ++ b) = x :: glue (x' :: A) (split sep b) := by
          rw [ih]; simp [glue]
        rw [split_cons_ne sep c _ _ _ hc ih', split_cons_ne sep c _ _ _ hc ha]
        simp [glue]

theorem split_append_sep (sep : Char) (a b : List Char) :
    split sep (a ++ sep :: b) = split sep a ++ split sep b := by
  induction a with
  | nil => simp [split]
  | cons c a ih =>
    obtain ⟨x, A, ha⟩ := split_eq_cons sep a
    rw [List.cons_append]
    by_cases hc : c = sep
    · subst hc
      rw [split_cons_sep, split_cons_sep, ih]
      simp
    · rw [ha] at ih
      rw [split_cons_ne sep c _ _ _ hc ih, split_cons_ne sep c _ _ _ hc ha]
      rfl

theorem mem_of_mem_split (sep : Char) (s : List Char) :
    ∀ p ∈ split sep s, ∀ c ∈ p, c ∈ s := by
  induction s with
  | nil => simp [split]
  | cons d s ih =>
    intro p hp c hc
    cases hs : split sep s with
    | nil => exact absurd hs (split_ne_nil sep s)
    | cons x A =>
      rw [hs] at ih
      by_cases hd : d = sep
      · simp only [split, hd, if_true, hs, List.mem_cons] at hp
        rcases hp with rfl | hp
        · simp at hc
        · exact List.mem_cons_of_mem _ (ih p (by simp [hp]) c hc)
      · simp only [split, hd, if_false, hs, List.mem_cons] at hp
        rcases hp with rfl | hp
        · rcases List.mem_cons.1 hc with rfl | hc
          · simp
          · exact List.mem_cons_of_mem _ (ih x (by simp) c hc)
        · exact List.mem_cons_of_mem _ (ih p (by simp [hp]) c hc)

theorem exists_mem_split (sep : Char) (s : List Char) (c : Char) (hc : c ∈ s)
    (hne : c ≠ sep) : ∃ p ∈ split sep s, c ∈ p := by
  induction s with
  | nil => simp at hc
  | cons d s ih =>
    cases hs : split sep s with
    | nil => exact absurd hs (split_ne_nil sep s)
    | cons x A =>
      rw [hs] at ih
      by_cases hd : d = sep
      · have hcs : c ∈ s := by
          rcases List.mem_cons.1 hc with h | h
          · exact absurd (h.trans hd) hne
          · exact h
        obtain ⟨p, hp, hcp⟩ := ih hcs
        exact ⟨p, by simp only [split, hd, if_true, hs]; exact List.mem_cons_of_mem _ hp, hcp⟩
      · simp only [split, hd, if_false, hs]
        rcases List.mem_cons.1 hc with h | h
        · exact ⟨d :: x, by simp, by simp [h]⟩
        · obtain ⟨p, hp, hcp⟩ := ih h
          rcases List.mem_cons.1 hp with rfl | hp
          · exact ⟨d :: p, by simp, List.mem_cons_of_mem _ hcp⟩
          · exact ⟨p, List.mem_cons_of_mem _ hp, hcp⟩

theorem TrimSpace_of_space (w : List Char) (hw : ∀ c ∈ w, isSpace c = true) :
    TrimSpace w = [] := by
  have h : w.dropWhile isSpace = [] := List.dropWhile_eq_nil_iff.2 hw
  simp [TrimSpace, trimRight, h]

theorem trimRight_append_space (x y : List Char) (hy : ∀ c ∈ y, isSpace c = true) :
    trimRight (x ++ y) = trimRight x := by
  unfold trimRight List.rdropWhile
  rw [List.reverse_append, List.dropWhile_append_of_pos]
  intro a ha
  exact hy a (List.mem_reverse.1 ha)

theorem TrimSpace_append_space (x y : List Char) (hy : ∀ c ∈ y, isSpace c = true) :
    TrimSpace (x ++ y) = TrimSpace x := by
  unfold TrimSpace
  rw [List.dropWhile_append]
  split_ifs with h
  · have hx : x.dropWhile isSpace = [] := by simpa using h
    have hy' : y.dropWhile isSpace = [] := List.dropWhile_eq_nil_iff.2 hy
    rw [hx, hy']
  · exact trimRight_append_space _ _ hy

theorem TrimSpace_space_append (x y : List Char) (hx : ∀ c ∈ x, isSpace c = true) :
    TrimSpace (x ++ y) = TrimSpace y := by
  unfold TrimSpace
  rw [List.dropWhile_append_of_pos hx]

theorem TrimSpace_ne_nil (p : List Char) (c : Char) (hc : c ∈ p) (hs : isSpace c = false) :
    TrimSpace p ≠ [] := by
  have hd : p.dropWhile isSpace ≠ [] := by
    intro h
    have := List.dropWhile_eq_nil_iff.1 h c hc
    simp [hs] at this
  intro h
  have hall := (List.rdropWhile_eq_nil_iff (p := isSpace)).1 h
  have hhead := List.head_dropWhile_not isSpace p hd
  have := hall _ (List.head_mem hd)
  simp [hhead] at this

theorem TrimSpace_head (p : List Char) (c : Char) (h : (TrimSpace p).head? = some c) :
    isSpace c = false := by
  unfold TrimSpace trimRight at h
  obtain ⟨r, hr⟩ := List.rdropWhile_prefix isSpace (p.dropWhile isSpace)
  cases ht : List.rdropWhile isSpace (p.dropWhile isSpace) with
  | nil => simp [ht] at h
  | cons a t =>
    rw [ht] at h hr
    simp at h
    subst h
    have := List.head?_dropWhile_not isSpace p
    rw [← hr] at this
    simpa using this

theorem TrimSpace_getLast (p : List Char) (c : Char) (h : (TrimSpace p).getLast? = some c) :
    isSpace c = false := by
  unfold TrimSpace trimRight at h
  have hne : List.rdropWhile isSpace (p.dropWhile isSpace) ≠ [] := by
    intro h0
    simp [h0] at h
  have := List.rdropWhile_last_not isSpace (p.dropWhile isSpace) hne
  rw [List.getLast?_eq_getLast _ hne] at h
  simp at h
  subst h
  simpa using this

theorem cleanParts_cons (p : List Char) (rest : List (List Char)) :
    cleanParts (p :: rest) =
      (if TrimSpace p = [] then [] else [TrimSpace p]) ++ cleanParts rest := by
  cases h : TrimSpace p with
  | nil => simp [cleanParts, h]
  | cons a t => simp [cleanParts, h]

theorem cleanParts_append (A B : List (List Char)) :
    cleanParts (A ++ B) = cleanParts A ++ cleanParts B := by
  induction A with
  | nil => simp [cleanParts]
  | cons p A ih => rw [List.cons_append, cleanParts_cons, cleanParts_cons, ih, List.append_assoc]

theorem cleanParts_of_space (L : List (List Char))
    (h : ∀ p ∈ L, ∀ c ∈ p, isSpace c = true) : cleanParts L = [] := by
  induction L with
  | nil => simp [cleanParts]
  | cons p L ih =>
    rw [cleanParts_cons, TrimSpace_of_space p (h p (by simp)),
      ih (fun q hq => h q (List.mem_cons_of_mem _ hq))]
    simp

theorem cleanParts_glue_right (A B : List (List Char))
    (hB : ∀ p ∈ B, ∀ c ∈ p, isSpace c = true) :
    cleanParts (glue A B) = cleanParts A := by
  induction A with
  | nil => simp [glue, cleanParts_of_space B hB, cleanParts]
  | cons x A ih =>
    cases A with
    | nil =>
      cases B with
      | nil => simp [glue]
      | cons y B =>
        have hy : ∀ c ∈ y, isSpace c = true := hB y (by simp)
        have hB' : cleanParts B = [] :=
          cleanParts_of_space B (fun q hq => hB q (List.mem_cons_of_mem _ hq))
        simp only [glue]
        rw [cleanParts_cons, cleanParts_cons, TrimSpace_append_space x y hy, hB']
        simp [cleanParts]
    | cons x' A =>
      simp only [glue]
      rw [cleanParts_cons, cleanParts_cons, ih]

theorem cleanParts_glue_left (A B : List (List Char))
    (hA : ∀ p ∈ A, ∀ c ∈ p, isSpace c = true) (hne : A ≠ []) (hB : B ≠ []) :
    cleanParts (glue A B) = cleanParts B := by
  induction A with
  | nil => exact absurd rfl hne
  | cons x A ih =>
    have hx : ∀ c ∈ x, isSpace c = true := hA x (by simp)
    cases A with
    | nil =>
      cases B with
      | nil => exact absurd rfl hB
      | cons y B =>
        simp only [glue]
        rw [cleanParts_cons, cleanParts_cons, TrimSpace_space_append x y hx]
    | cons x' A =>
      simp only [glue]
      rw [cleanParts_cons, TrimSpace_of_space x hx,
        ih (fun q hq => hA q (List.mem_cons_of_mem _ hq)) (by simp)]
      simp

theorem cleanParts_split_append_space (u w : List Char) (hw : ∀ c ∈ w, isSpace c = true) :
    cleanParts (split ' ' (u ++ w)) = cleanParts (split ' ' u) := by
  rw [split_append]
  exact cleanParts_glue_right _ _ (fun p hp c hc => hw c (mem_of_mem_split ' ' w p hp c hc))

theorem cleanParts_split_space_append (w v : List Char) (hw : ∀ c ∈ w, isSpace c = true) :
    cleanParts (split ' ' (w ++ v)) = cleanParts (split ' ' v) := by
  rw [split_append]
  exact cleanParts_glue_left _ _ (fun p hp c hc => hw c (mem_of_mem_split ' ' w p hp c hc))
    (split_ne_nil _ _) (split_ne_nil _ _)

theorem mem_cleanParts (L : List (List Char)) (p : List Char) (hp : p ∈ L)
    (hne : TrimSpace p ≠ []) : TrimSpace p ∈ cleanParts L := by
  induction L with
  | nil => simp at hp
  | cons q L ih =>
    rw [cleanParts_cons]
    rcases List.mem_cons.1 hp with rfl | h
    · simp [hne]
    · exact List.mem_append_right _ (ih h)

theorem cleanParts_split_ne_nil (u : List Char) (h : ∃ c ∈ u, isSpace c = false) :
    cleanParts (split ' ' u) ≠ [] := by
  obtain ⟨c, hc, hs⟩ := h
  have hne : c ≠ ' ' := by
    rintro rfl
    simp [isSpace] at hs
  obtain ⟨p, hp, hcp⟩ := exists_mem_split ' ' u c hc hne
  exact List.ne_nil_of_mem (mem_cleanParts _ p hp (TrimSpace_ne_nil p c hcp hs))

theorem cleanParts_trimmed (L : List (List Char)) :
    ∀ q ∈ cleanParts L, q ≠ [] ∧ (∀ c, q.head? = some c → isSpace c = false) ∧
      (∀ c, q.getLast? = some c → isSpace c = false) := by
  induction L with
  | nil => simp [cleanParts]
  | cons p L ih =>
    intro q hq
    rw [cleanParts_cons] at hq
    rcases List.mem_append.1 hq with h | h
    · by_cases hp : TrimSpace p = []
      · simp [hp] at h
      · simp only [hp, if_false, List.mem_singleton] at h
        subst h
        exact ⟨hp, TrimSpace_head p, TrimSpace_getLast p⟩
    · exact ih q h

theorem Join_append (sep : Char) (A B : List (List Char)) (hA : A ≠ []) (hB : B ≠ []) :
    Join sep (A ++ B) = Join sep A ++ sep :: Join sep B := by
  induction A with
  | nil => exact absurd rfl hA
  | cons p A ih =>
    cases A with
    | nil =>
      cases B with
      | nil => exact absurd rfl hB
      | cons q B => simp [Join]
    | cons q A =>
      have := ih (by simp)
      simp only [List.cons_append] at this ⊢
      simp [Join, this]

theorem Join_head (sep : Char) (L : List (List Char)) (hL : ∀ q ∈ L, q ≠ []) (c : Char)
    (h : (Join sep L).head? = some c) : ∃ q ∈ L, q.head? = some c := by
  cases L with
  | nil => simp [Join] at h
  | cons p L =>
    refine ⟨p, by simp, ?_⟩
    cases p with
    | nil => exact absurd rfl (hL [] (by simp))
    | cons a t =>
      cases L with
      | nil => simpa [Join] using h
      | cons q L => simpa [Join] using h

theorem Join_getLast (sep : Char) (L : List (List Char)) (hL : ∀ q ∈ L, q ≠ []) (c : Char)
    (h : (Join sep L).getLast? = some c) : ∃ q ∈ L, q.getLast? = some c := by
  induction L with
  | nil => simp [Join] at h
  | cons p L ih =>
    cases L with
    | nil => exact ⟨p, by simp, by simpa [Join] using h⟩
    | cons q L =>
      have hq : Join sep (q :: L) ≠ [] := by
        have hq0 : q ≠ [] := hL q (by simp)
        cases L with
        | nil => simpa [Join] using hq0
        | cons r L => simp [Join, hq0]
      have h' : (Join sep (q :: L)).getLast? = some c := by
        have hcons : sep :: Join sep (q :: L) ≠ [] := by simp
        simp only [Join] at h
        rw [List.getLast?_append_of_ne_nil _ hcons] at h
        cases hj : Join sep (q :: L) with
        | nil => exact absurd hj hq
        | cons b t =>
          rw [hj, List.getLast?_cons_cons] at h
          exact h
      obtain ⟨r, hr, hc⟩ := ih (fun r hr => hL r (List.mem_cons_of_mem _ hr)) h'
      exact ⟨r, List.mem_cons_of_mem _ hr, hc⟩

theorem cleanChars_head (s : List Char) (c : Char) (h : (cleanChars s).head? = some c) :
    isSpace c = false := by
  obtain ⟨q, hq, hc⟩ := Join_head ' ' _ (fun q hq => (cleanParts_trimmed _ q hq).1) c h
  exact (cleanParts_trimmed _ q hq).2.1 c hc

theorem cleanChars_getLast (s : List Char) (c : Char) (h : (cleanChars s).getLast? = some c) :
    isSpace c = false := by
  obtain ⟨q, hq, hc⟩ := Join_getLast ' ' _ (fun q hq => (cleanParts_trimmed _ q hq).1) c h
  exact (cleanParts_trimmed _ q hq).2.2 c hc

theorem cleanChars_run (u w v : List Char) (hw : ∀ c ∈ w, isSpace c = true)
    (hsp : ' ' ∈ w) (hu : ∃ c ∈ u, isSpace c = false) (hv : ∃ c ∈ v, isSpace c = false) :
    cleanChars (u ++ w ++ v) = cleanChars u ++ ' ' :: cleanChars v := by
  obtain ⟨w1, w2, rfl⟩ := List.append_of_mem hsp
  have h1 : ∀ c ∈ w1, isSpace c = true := fun c hc => hw c (by simp [hc])
  have h2 : ∀ c ∈ w2, isSpace c = true := fun c hc => hw c (by simp [hc])
  have e : u ++ (w1 ++ ' ' :: w2) ++ v = (u ++ w1) ++ ' ' :: (w2 ++ v) := by simp
  unfold cleanChars
  rw [e, split_append_sep, cleanParts_append, cleanParts_split_append_space u w1 h1,
    cleanParts_split_space_append w2 v h2,
    Join_append _ _ _ (cleanParts_split_ne_nil u hu) (cleanParts_split_ne_nil v hv)]

/-! ## Lemmas on the link extractor -/

theorem drainAttributes_no_href (extra : Nat) (attrs : List Attribute)
    (h : (attrs.filter (fun a => a.Key = "href")).length = 0) :
    drainAttributes extra attrs = some () := by
  induction attrs generalizing extra with
  | nil => cases extra <;> simp [drainAttributes]
  | cons a rest ih =>
    cases extra with
    | zero => simp [drainAttributes]
    | succ extra =>
      by_cases hk : a.Key = "href"
      · simp [List.filter, hk] at h
      · have hr : (rest.filter (fun a => a.Key = "href")).length = 0 := by
          simpa [List.filter, hk] using h
        simp [drainAttributes, hk, ih extra hr]

theorem scanAttributes_one_href (extra : Nat) (attrs : List Attribute)
    (h : (attrs.filter (fun a => a.Key = "href")).length = 1) :
    ∃ v, scanAttributes extra attrs = some (some v) ∧
      (attrs.find? (fun a => a.Key = "href")).map (fun a => a.Val) = some v := by
  induction attrs with
  | nil => simp at h
  | cons a rest ih =>
    by_cases hk : a.Key = "href"
    · have hr : (rest.filter (fun a => a.Key = "href")).length = 0 := by
        simpa [List.filter, hk] using h
      exact ⟨a.Val, by simp [scanAttributes, hk, drainAttributes_no_href extra rest hr],
        by simp [List.find?, hk]⟩
    · have hr : (rest.filter (fun a => a.Key = "href")).length = 1 := by
        simpa [List.filter, hk] using h
      obtain ⟨v, hv, hf⟩ := ih hr
      exact ⟨v, by simp [scanAttributes, hk, hv], by simp [List.find?, hk, hf]⟩

theorem filterMap_href_length (stack : List AnchorFrame) (h : ∀ f ∈ stack, f.href ≠ none) :
    (stack.filterMap (fun f => f.href)).length = stack.length := by
  induction stack with
  | nil => simp
  | cons f below ih =>
    cases hf : f.href with
    | none => exact absurd hf (h f (by simp))
    | some v =>
      simp [List.filterMap_cons, hf, ih (fun g hg => h g (List.mem_cons_of_mem _ hg))]

theorem parseToken_start (extra : Nat) (stack : List AnchorFrame) (t : Token)
    (hS : isStartA t = true) (h1 : hrefCount t = 1) :
    parseToken extra (stateOf stack) t =
      some (stateOf ({ href := hrefValue t, text := "" } :: stack), []) := by
  obtain ⟨v, hv, hf⟩ := scanAttributes_one_href extra t.Attr h1
  simp only [isStartA, Bool.and_eq_true, decide_eq_true_eq] at hS
  have hval : hrefValue t = some v := hf
  simp only [parseToken, hS.1, hS.2, if_true, hv, hval, stateOf, List.filterMap_cons,
    List.reverse_cons, List.map_cons, Option.toList, List.length_cons, Nat.cast_add,
    Nat.cast_one]
  congr 2
  congr 1
  omega

theorem parseToken_end (extra : Nat) (f : AnchorFrame) (below : List AnchorFrame) (t : Token)
    (h : String) (hE : isEndA t = true) (hf : f.href = some h)
    (hb : ∀ g ∈ below, g.href ≠ none) :
    parseToken extra (stateOf (f :: below)) t =
      some (stateOf below, [{ Href := h, Text := cleanText f.text }]) := by
  simp only [isEndA, Bool.and_eq_true, decide_eq_true_eq] at hE
  have hlen := filterMap_href_length below hb
  have hcur : ((((f :: below).length : Nat) : Int) - 1).toNat = below.length := by
    simp
  have hnn : (0 : Int) ≤ (((f :: below).length : Nat) : Int) - 1 := by
    simp
  simp only [parseToken, hE.1, hE.2, if_true, stateOf, List.filterMap_cons, hf,
    List.reverse_cons, List.map_cons, hcur, hnn]
  have e1 : ((List.filterMap (fun f => f.href) below).reverse ++ [h])[below.length]? = some h := by
    rw [List.getElem?_append_right (by simp [hlen])]
    simp [hlen]
  have e2 : ((List.map (fun f => f.text) below).reverse ++ [f.text])[below.length]? =
      some f.text := by
    rw [List.getElem?_append_right (by simp)]
    simp
  have t1 : List.take below.length ((List.filterMap (fun f => f.href) below).reverse ++ [h]) =
      (List.filterMap (fun f => f.href) below).reverse := by
    rw [List.take_append_of_le_length (by simp [hlen])]
    exact List.take_of_length_le (by simp [hlen])
  have t2 : List.take below.length ((List.map (fun f => f.text) below).reverse ++ [f.text]) =
      (List.map (fun f => f.text) below).reverse := by
    rw [List.take_append_of_le_length (by simp)]
    exact List.take_of_length_le (by simp)
  simp [e1, e2, t1, t2]

theorem parseToken_text_nil (extra : Nat) (t : Token) (hT : t.Typ = TokenType.TextToken) :
    parseToken extra (stateOf []) t = some (stateOf [], []) := by
  simp [parseToken, hT, stateOf]

theorem parseToken_text_cons (extra : Nat) (f : AnchorFrame) (below : List AnchorFrame)
    (t : Token) (hT : t.Typ = TokenType.TextToken) :
    parseToken extra (stateOf (f :: below)) t =
      some (stateOf ({ f with text := f.text ++ t.Data } :: below), []) := by
  have hcur : ((((f :: below).length : Nat) : Int) - 1).toNat = below.length := by
    simp
  have hnn : (0 : Int) ≤ (((f :: below).length : Nat) : Int) - 1 := by
    simp
  have e2 : ((List.map (fun f => f.text) below).reverse ++ [f.text])[below.length]? =
      some f.text := by
    rw [List.getElem?_append_right (by simp)]
    simp
  have s2 : ((List.map (fun f => f.text) below).reverse ++ [f.text]).set below.length
      (f.text ++ t.Data) = (List.map (fun f => f.text) below).reverse ++ [f.text ++ t.Data] := by
    rw [List.set_append_right _ _ (by simp)]
    simp
  simp only [parseToken, hT, stateOf, List.map_cons, List.reverse_cons, hcur, hnn, e2, s2,
    List.filterMap_cons]
  simp

theorem parseToken_other (extra : Nat) (s : ParserState) (t : Token)
    (hS : isStartA t = false) (hE : isEndA t = false) (hT : t.Typ ≠ TokenType.TextToken) :
    parseToken extra s t = some (s, []) := by
  cases hty : t.Typ with
  | StartTagToken =>
    have : t.DataAtom ≠ atom.A := by
      intro h
      simp [isStartA, hty, h] at hS
    simp [parseToken, hty, this]
  | EndTagToken =>
    have : t.DataAtom ≠ atom.A := by
      intro h
      simp [isEndA, hty, h] at hE
    simp [parseToken, hty, this]
  | TextToken => exact absurd hty hT
  | ErrorToken => simp [parseToken, hty]
  | SelfClosingTagToken => simp [parseToken, hty]
  | CommentToken => simp [parseToken, hty]
  | DoctypeToken => simp [parseToken, hty]

theorem parseTokens_wellNestedSingle (toks : List Token) :
    ∀ (extras : List Nat) (stack : List AnchorFrame), (∀ f ∈ stack, f.href ≠ none) →
      wellNestedSingle stack.length toks = true →
      parseTokens extras (stateOf stack) toks = (specLinks stack toks, false) := by
  induction toks with
  | nil => intro extras stack _ _; simp [parseTokens, specLinks]
  | cons t rest ih =>
    intro extras stack hstack hw
    by_cases hS : isStartA t = true
    · simp only [wellNestedSingle, hS, if_true, Bool.and_eq_true, decide_eq_true_eq] at hw
      obtain ⟨v, _, hv⟩ := scanAttributes_one_href 0 t.Attr hw.1
      have hval : hrefValue t = some v := hv
      have hstack' : ∀ f ∈ ({ href := hrefValue t, text := "" } : AnchorFrame) :: stack,
          f.href ≠ none := by
        intro f hf
        rcases List.mem_cons.1 hf with rfl | hf
        · simp [hval]
        · exact hstack f hf
      have := ih extras.tail _ hstack' (by simpa using hw.2)
      simp only [parseTokens, parseToken_start _ stack t hS hw.1, this, specLinks, hS,
        if_true, List.nil_append]
    · have hS' : isStartA t = false := by simpa using hS
      by_cases hE : isEndA t = true
      · simp only [wellNestedSingle, hS', hE, if_true, Bool.false_eq_true, if_false,
          Bool.and_eq_true, decide_eq_true_eq] at hw
        cases stack with
        | nil => simp at hw
        | cons f below =>
          have hb : ∀ g ∈ below, g.href ≠ none := fun g hg => hstack g (List.mem_cons_of_mem _ hg)
          cases hf : f.href with
          | none => exact absurd hf (hstack f (by simp))
          | some h =>
            have := ih extras.tail below hb (by simpa using hw.2)
            simp only [parseTokens, parseToken_end _ f below t h hE hf hb, this, specLinks,
              hS', hE, if_true, Bool.false_eq_true, if_false, hf]
      · have hE' : isEndA t = false := by simpa using hE
        simp only [wellNestedSingle, hS', hE', Bool.false_eq_true, if_false] at hw
        by_cases hT : t.Typ = TokenType.TextToken
        · cases stack with
          | nil =>
            have := ih extras.tail [] hstack hw
            simp only [parseTokens, parseToken_text_nil _ t hT, this, specLinks, hS', hE',
              Bool.false_eq_true, if_false, hT, if_true, List.nil_append]
          | cons f below =>
            have hstack' : ∀ g ∈ ({ f with text := f.text ++ t.Data } : AnchorFrame) :: below,
                g.href ≠ none := by
              intro g hg
              rcases List.mem_cons.1 hg with rfl | hg
              · exact hstack f (by simp)
              · exact hstack g (List.mem_cons_of_mem _ hg)
            have := ih extras.tail _ hstack' (by simpa using hw)
            simp only [parseTokens, parseToken_text_cons _ f below t hT, this, specLinks,
              hS', hE', Bool.false_eq_true, if_false, hT, if_true, List.nil_append]
        · have := ih extras.tail stack hstack hw
          simp only [parseTokens, parseToken_other _ _ t hS' hE' hT, this, specLinks, hS',
            hE', Bool.false_eq_true, if_false, hT, List.nil_append]

theorem wellNested_of_wellNestedSingle (toks : List Token) :
    ∀ depth, wellNestedSingle depth toks = true → wellNested depth toks = true := by
  induction toks with
  | nil => intro depth _; rfl
  | cons t rest ih =>
    intro depth h
    by_cases hS : isStartA t = true
    · simp only [wellNestedSingle, hS, if_true, Bool.and_eq_true, decide_eq_true_eq] at h
      simp only [wellNested, hS, if_true, Bool.and_eq_true, decide_eq_true_eq]
      exact ⟨by omega, ih _ h.2⟩
    · have hS' : isStartA t = false := by simpa using hS
      by_cases hE : isEndA t = true
      · simp only [wellNestedSingle, hS', hE, if_true, Bool.false_eq_true, if_false,
          Bool.and_eq_true, decide_eq_true_eq] at h
        simp only [wellNested, hS', hE, if_true, Bool.false_eq_true, if_false,
          Bool.and_eq_true, decide_eq_true_eq]
        exact ⟨h.1, ih _ h.2⟩
      · have hE' : isEndA t = false := by simpa using hE
        simp only [wellNestedSingle, hS', hE', Bool.false_eq_true, if_false] at h
        simp only [wellNested, hS', hE', Bool.false_eq_true, if_false]
        exact ih _ h

/-- With exactly one `href` attribute on every `a` start tag and every `a` end
tag closing an open anchor, `StreamLinks` does not panic, whatever the race in
the attribute loop, and sends exactly the links of the closed anchors in the
order of the closing tags, each with the `href` value of its start tag and the
cleaned text gathered while it was the innermost open anchor. -/
theorem StreamLinks_single_href (extras : List Nat) (toks : List Token)
    (h : wellNestedSingle 0 toks = true) :
    StreamLinks extras toks = (specLinks [] toks, false) := by
  have := parseTokens_wellNestedSingle toks extras [] (by simp) (by simpa using h)
  simpa [StreamLinks, stateOf] using this

/-- The nested anchors of the specification's example give the inner link, then
the outer one. -/
theorem StreamLinks_dogTokens :
    wellNestedSingle 0 dogTokens = true ∧
    StreamLinks [] dogTokens =
      ([{ Href := "/dog/golden", Text := "golden" },
        { Href := "/dog", Text := "outer retriever" }], false) :=
  ⟨by decide, (StreamLinks_single_href [] dogTokens (by decide)).trans (by decide)⟩

theorem parseToken_current (extra : Nat) (s s' : ParserState) (t : Token) (out : List Link)
    (h : parseToken extra s t = some (s', out))
    (hc : s.current = (s.textStack.length : Int) - 1) :
    s'.current = (s'.textStack.length : Int) - 1 := by
  unfold parseToken at h
  split at h
  · split_ifs at h
    · split at h
      · simp at h
      · simp only [Option.some.injEq, Prod.mk.injEq] at h
        obtain ⟨rfl, _⟩ := h
        simp only [List.length_append, List.length_cons, List.length_nil, Nat.cast_add,
          Nat.cast_one]
        omega
    · simp only [Option.some.injEq, Prod.mk.injEq] at h
      obtain ⟨rfl, _⟩ := h
      exact hc
  · split_ifs at h with h1 h2 h3 h4 h5 h6
    · simp only [Option.some.injEq, Prod.mk.injEq] at h
      obtain ⟨rfl, _⟩ := h
      simp only [List.length_drop]
      omega
    · simp only [Option.some.injEq, Prod.mk.injEq] at h
      obtain ⟨rfl, _⟩ := h
      simp only [List.length_take]
      omega
    · split at h
      · simp only [Option.some.injEq, Prod.mk.injEq] at h
        obtain ⟨rfl, _⟩ := h
        simp only [List.length_take]
        omega
      · simp at h
    · simp only [Option.some.injEq, Prod.mk.injEq] at h
      obtain ⟨rfl, _⟩ := h
      exact hc
  · split_ifs at h
    · split at h
      · simp only [Option.some.injEq, Prod.mk.injEq] at h
        obtain ⟨rfl, _⟩ := h
        simpa using hc
      · simp at h
    · simp only [Option.some.injEq, Prod.mk.injEq] at h
      obtain ⟨rfl, _⟩ := h
      exact hc
  · simp only [Option.some.injEq, Prod.mk.injEq] at h
    obtain ⟨rfl, _⟩ := h
    exact hc

/-! ## Lemmas on the crawl loop -/

theorem pick_perm (ws : List (List String)) :
    ∀ (i : Nat) (x : String) (ws' : List (List String)), pick i ws = some (x, ws') →
      ws.flatten.Perm (x :: ws'.flatten) := by
  induction ws with
  | nil => intro i x ws' h; cases i <;> simp [pick] at h
  | cons w ws ih =>
    intro i x ws' h
    cases i with
    | zero =>
      cases w with
      | nil => simp [pick] at h
      | cons y ys =>
        simp only [pick, Option.some.injEq, Prod.mk.injEq] at h
        obtain ⟨rfl, rfl⟩ := h
        simp
    | succ i =>
      simp only [pick, Option.map_eq_some', Prod.exists] at h
      obtain ⟨y, r, hp, he⟩ := h
      simp only [Prod.mk.injEq] at he
      obtain ⟨rfl, rfl⟩ := he
      have := ih i y r hp
      simp only [List.flatten_cons]
      exact (List.Perm.append_left w this).trans List.perm_middle

theorem pick_isSome (ws : List (List String)) (hne : ∀ l ∈ ws, l ≠ []) :
    ∀ i, i < ws.length → ∃ r, pick i ws = some r := by
  induction ws with
  | nil => intro i h; simp at h
  | cons w ws ih =>
    intro i h
    cases i with
    | zero =>
      cases w with
      | nil => exact absurd rfl (hne [] (by simp))
      | cons y ys => exact ⟨_, rfl⟩
    | succ i =>
      obtain ⟨r, hr⟩ := ih (fun l hl => hne l (List.mem_cons_of_mem _ hl)) i (by simpa using h)
      exact ⟨(r.1, w :: r.2), by simp [pick, hr]⟩

theorem mergeFuel_perm (fuel : Nat) :
    ∀ (choices : List Nat) (outs : List (List String)), outs.flatten.length ≤ fuel →
      (mergeFuel fuel choices outs).Perm outs.flatten := by
  induction fuel with
  | zero =>
    intro choices outs h
    have : outs.flatten = [] := List.length_eq_zero.1 (Nat.le_zero.1 h)
    simp [mergeFuel, this]
  | succ fuel ih =>
    intro choices outs h
    have hflat : (outs.filter (fun l => !l.isEmpty)).flatten = outs.flatten :=
      List.flatten_filter_not_isEmpty
    by_cases hlive : outs.filter (fun l => !l.isEmpty) = []
    · have : outs.flatten = [] := by rw [← hflat, hlive]; rfl
      simp [mergeFuel, hlive, pick, this]
    · have hpos : 0 < (outs.filter (fun l => !l.isEmpty)).length :=
        List.length_pos.2 hlive
      have hne : ∀ l ∈ outs.filter (fun l => !l.isEmpty), l ≠ [] := by
        intro l hl
        have := (List.mem_filter.1 hl).2
        intro h0
        simp [h0] at this
      obtain ⟨⟨x, live'⟩, hr⟩ := pick_isSome _ hne
        (choices.headD 0 % (outs.filter (fun l => !l.isEmpty)).length) (Nat.mod_lt _ hpos)
      have hperm := pick_perm _ _ x live' hr
      rw [hflat] at hperm
      have hlen : live'.flatten.length ≤ fuel := by
        have := hperm.length_eq
        simp only [List.length_cons] at this
        omega
      have := ih choices.tail live' hlen
      simp only [mergeFuel, hr]
      exact (List.Perm.cons x this).trans hperm.symm

theorem merge_perm (choices : List Nat) (outs : List (List String)) :
    (merge choices outs).Perm outs.flatten := by
  unfold merge
  exact mergeFuel_perm _ choices outs (by simp)

theorem foldl_appendQueue (grow : Nat → Nat → Nat) (news : List String) :
    ∀ (q : List String × Nat), (news.foldl (appendQueue grow) q).1 = q.1 ++ news := by
  induction news with
  | nil => intro q; simp
  | cons u news ih => intro q; simp [List.foldl, ih, appendQueue]

theorem dispatch_seen (batch : List String) :
    ∀ (seen : List String) (u : String),
      u ∈ (dispatch batch seen).1 ↔ u ∈ seen ∨ (u ∈ batch ∧ u ≠ "") := by
  induction batch with
  | nil => intro seen u; simp [dispatch]
  | cons url rest ih =>
    intro seen u
    by_cases h : url = "" ∨ url ∈ seen
    · simp only [dispatch, h, if_true, ih, List.mem_cons]
      constructor
      · rintro (h1 | ⟨h1, h2⟩)
        · exact Or.inl h1
        · exact Or.inr ⟨Or.inr h1, h2⟩
      · rintro (h1 | ⟨h1 | h1, h2⟩)
        · exact Or.inl h1
        · subst h1
          rcases h with h | h
          · exact absurd h h2
          · exact Or.inl h
        · exact Or.inr ⟨h1, h2⟩
    · simp only [dispatch, h, if_false, ih, List.mem_cons]
      push_neg at h
      constructor
      · rintro ((h1 | h1) | ⟨h1, h2⟩)
        · subst h1
          exact Or.inr ⟨Or.inl rfl, h.1⟩
        · exact Or.inl h1
        · exact Or.inr ⟨Or.inr h1, h2⟩
      · rintro (h1 | ⟨h1 | h1, h2⟩)
        · exact Or.inl (Or.inr h1)
        · exact Or.inl (Or.inl h1)
        · exact Or.inr ⟨h1, h2⟩

theorem dispatch_new (batch : List String) :
    ∀ (seen : List String),
      (dispatch batch seen).2.Nodup ∧
      (∀ u ∈ (dispatch batch seen).2, u ∉ seen ∧ u ∈ batch ∧ u ≠ "") ∧
      (∀ u, u ∈ (dispatch batch seen).1 ↔ u ∈ seen ∨ u ∈ (dispatch batch seen).2) := by
  induction batch with
  | nil => intro seen; simp [dispatch]
  | cons url rest ih =>
    intro seen
    by_cases h : url = "" ∨ url ∈ seen
    · obtain ⟨h1, h2, h3⟩ := ih seen
      simp only [dispatch, h, if_true]
      exact ⟨h1, fun u hu => ⟨(h2 u hu).1, List.mem_cons_of_mem _ (h2 u hu).2.1, (h2 u hu).2.2⟩, h3⟩
    · obtain ⟨h1, h2, h3⟩ := ih (url :: seen)
      simp only [dispatch, h, if_false]
      push_neg at h
      refine ⟨List.nodup_cons.2 ⟨fun hm => (h2 url hm).1 (by simp), h1⟩, ?_, ?_⟩
      · intro u hu
        rcases List.mem_cons.1 hu with rfl | hu
        · exact ⟨h.2, by simp, h.1⟩
        · exact ⟨fun hs => (h2 u hu).1 (List.mem_cons_of_mem _ hs),
            List.mem_cons_of_mem _ (h2 u hu).2.1, (h2 u hu).2.2⟩
      · intro u
        rw [h3 u]
        simp only [List.mem_cons]
        tauto

theorem workerOutputs_spec (site : String → Option (List String)) (urls : List String) :
    ∀ outs, workerOutputs site urls = some outs →
      List.Forall₂ (fun u l => site u = some l) urls outs := by
  induction urls with
  | nil => intro outs h; simp [workerOutputs] at h; subst h; exact List.Forall₂.nil
  | cons u urls ih =>
    intro outs h
    cases hs : site u with
    | none => simp [workerOutputs, hs] at h
    | some l =>
      cases hw : workerOutputs site urls with
      | none => simp [workerOutputs, hs, hw] at h
      | some others =>
        simp [workerOutputs, hs, hw] at h
        subst h
        exact List.Forall₂.cons hs (ih others hw)

theorem workerOutputs_source (site : String → Option (List String)) (urls : List String) :
    ∀ outs, workerOutputs site urls = some outs →
      ∀ l ∈ outs, ∃ d ∈ urls, site d = some l := by
  induction urls with
  | nil => intro outs h; simp [workerOutputs] at h; subst h; simp
  | cons u urls ih =>
    intro outs h l hl
    cases hs : site u with
    | none => simp [workerOutputs, hs] at h
    | some l0 =>
      cases hw : workerOutputs site urls with
      | none => simp [workerOutputs, hs, hw] at h
      | some others =>
        simp [workerOutputs, hs, hw] at h
        subst h
        rcases List.mem_cons.1 hl with rfl | hl
        · exact ⟨u, by simp, hs⟩
        · obtain ⟨d, hd1, hd2⟩ := ih others hw l hl
          exact ⟨d, List.mem_cons_of_mem _ hd1, hd2⟩

theorem iteration_spec (W : Nat) (site : String → Option (List String))
    (grow : Nat → Nat → Nat) (choices : List Nat) (st st' : CrawlState)
    (h : iteration W site grow choices st = some st') :
    ∃ batch outs, batchOf W st = some batch ∧
      workerOutputs site (dispatch batch st.seen).2 = some outs ∧
      st'.seen = (dispatch batch st.seen).1 ∧
      st'.visited = st.visited ++ (dispatch batch st.seen).2 ∧
      ((W ≤ (st.queue ++ merge choices outs).length ∧
          st'.queue = (st.queue ++ merge choices outs).drop W) ∨
       ((st.queue ++ merge choices outs).length < W ∧
          st'.queue = (st.queue ++ merge choices outs).drop 1)) := by
  unfold iteration at h
  cases hb : batchOf W st with
  | none => simp [hb] at h
  | some batch =>
    cases hw : workerOutputs site (dispatch batch st.seen).2 with
    | none => simp [hb, hw] at h
    | some outs =>
      simp only [hb, hw, foldl_appendQueue] at h
      refine ⟨batch, outs, rfl, hw, ?_⟩
      split_ifs at h with h1 h2
      · simp only [Option.some.injEq] at h
        subst h
        exact ⟨rfl, rfl, Or.inl ⟨h1, rfl⟩⟩
      · simp only [Option.some.injEq] at h
        subst h
        exact ⟨rfl, rfl, Or.inr ⟨Nat.lt_of_not_le h1, rfl⟩⟩

theorem mem_batchOf (W : Nat) (st : CrawlState) (batch : List String)
    (h : batchOf W st = some batch) : ∀ u ∈ batch, u = "" ∨ u ∈ st.queue := by
  unfold batchOf at h
  split_ifs at h
  simp only [Option.some.injEq] at h
  subst h
  intro u hu
  rcases List.mem_append.1 hu with h1 | h1
  · exact Or.inr (List.mem_of_mem_take h1)
  · exact Or.inl (List.eq_of_mem_replicate h1)

theorem iterations_invariant (W : Nat) (site : String → Option (List String))
    (grow : Nat → Nat → Nat) (Inv : CrawlState → Prop)
    (hstep : ∀ choices st st', Inv st → iteration W site grow choices st = some st' → Inv st')
    (n : Nat) :
    ∀ (sched : List (List Nat)) (st st' : CrawlState), Inv st →
      iterations W site grow sched n st = some st' → Inv st' := by
  induction n with
  | zero =>
    intro sched st st' hi h
    simp only [iterations, Option.some.injEq] at h
    exact h ▸ hi
  | succ n ih =>
    intro sched st st' hi h
    unfold iterations at h
    split_ifs at h with hq
    · split at h
      · simp at h
      · next st1 hit => exact ih sched.tail st1 st' (hstep _ st st1 hi hit) h
    · simp only [Option.some.injEq] at h
      exact h ▸ hi

theorem iteration_visited (W : Nat) (site : String → Option (List String))
    (grow : Nat → Nat → Nat) (choices : List Nat) (st st' : CrawlState)
    (hi : st.visited.Nodup ∧ ∀ u ∈ st.visited, u ∈ st.seen)
    (h : iteration W site grow choices st = some st') :
    st'.visited.Nodup ∧ ∀ u ∈ st'.visited, u ∈ st'.seen := by
  obtain ⟨batch, outs, _, _, hseen, hvis, _⟩ := iteration_spec W site grow choices st st' h
  obtain ⟨hnd, hnew, hmem⟩ := dispatch_new batch st.seen
  rw [hvis, hseen]
  constructor
  · refine List.Nodup.append hi.1 hnd ?_
    intro u hu hd
    exact (hnew u hd).1 (hi.2 u hu)
  · intro u hu
    rw [hmem u]
    rcases List.mem_append.1 hu with h1 | h1
    · exact Or.inl (hi.2 u h1)
    · exact Or.inr h1

theorem iteration_members (W : Nat) (site : String → Option (List String))
    (grow : Nat → Nat → Nat) (Q : String → Prop)
    (hsite : ∀ u l, site u = some l → ∀ v ∈ l, Q v) (choices : List Nat)
    (st st' : CrawlState)
    (hi : (∀ u ∈ st.seen, Q u) ∧ ∀ u ∈ st.queue, u = "" ∨ Q u)
    (h : iteration W site grow choices st = some st') :
    (∀ u ∈ st'.seen, Q u) ∧ ∀ u ∈ st'.queue, u = "" ∨ Q u := by
  obtain ⟨batch, outs, hb, hw, hseen, _, hq⟩ := iteration_spec W site grow choices st st' h
  have hnews : ∀ u ∈ merge choices outs, Q u := by
    intro u hu
    have hu' : u ∈ outs.flatten := (merge_perm choices outs).subset hu
    obtain ⟨l, hl, hul⟩ := List.mem_flatten.1 hu'
    obtain ⟨d, _, hd⟩ := workerOutputs_source site _ outs hw l hl
    exact hsite d l hd u hul
  constructor
  · intro u hu
    rw [hseen, dispatch_seen] at hu
    rcases hu with h1 | ⟨h1, h2⟩
    · exact hi.1 u h1
    · rcases mem_batchOf W st batch hb u h1 with h3 | h3
      · exact absurd h3 h2
      · rcases hi.2 u h3 with h4 | h4
        · exact absurd h4 h2
        · exact h4
  · intro u hu
    have hmem : u ∈ st.queue ++ merge choices outs := by
      rcases hq with ⟨_, e⟩ | ⟨_, e⟩
      · rw [e] at hu; exact List.mem_of_mem_drop hu
      · rw [e] at hu; exact List.mem_of_mem_drop hu
    rcases List.mem_append.1 hmem with h1 | h1
    · exact hi.2 u h1
    · exact Or.inr (hnews u h1)

theorem init_spec (W : Nat) (entryPoint : String) (st0 : CrawlState)
    (h : init W entryPoint = some st0) :
    st0.seen = [] ∧ st0.visited = [] ∧ st0.cap = 10000 ∧
      st0.queue = entryPoint :: List.replicate (W - 1) "" := by
  unfold init at h
  split_ifs at h
  simp only [Option.some.injEq] at h
  subst h
  exact ⟨rfl, rfl, rfl, rfl⟩

theorem resolveLinks_mem {U : Type} (lib : UrlLib U) (baseUrl : U) (links : List Link)
    (u : String) :
    u ∈ resolveLinks lib baseUrl links ↔
      ∃ link ∈ links, ∃ p, lib.Parse baseUrl link.Href = some p ∧
        lib.Hostname p = lib.Hostname baseUrl ∧ u = lib.Str p := by
  induction links with
  | nil => simp [resolveLinks]
  | cons link rest ih =>
    cases hp : lib.Parse baseUrl link.Href with
    | none =>
      simp only [resolveLinks, hp, ih, List.mem_cons]
      constructor
      · rintro ⟨l, hl, p, h1, h2, h3⟩
        exact ⟨l, Or.inr hl, p, h1, h2, h3⟩
      · rintro ⟨l, hl | hl, p, h1, h2, h3⟩
        · subst hl; rw [hp] at h1; cases h1
        · exact ⟨l, hl, p, h1, h2, h3⟩
    | some q =>
      by_cases hh : lib.Hostname q = lib.Hostname baseUrl
      · simp only [resolveLinks, hp, hh, if_true, List.mem_cons, ih]
        constructor
        · rintro (h | ⟨l, hl, p, h1, h2, h3⟩)
          · exact ⟨link, Or.inl rfl, q, hp, hh, h⟩
          · exact ⟨l, Or.inr hl, p, h1, h2, h3⟩
        · rintro ⟨l, hl | hl, p, h1, h2, h3⟩
          · subst hl
            rw [hp] at h1
            cases h1
            exact Or.inl h3
          · exact Or.inr ⟨l, hl, p, h1, h2, h3⟩
      · simp only [resolveLinks, hp, hh, if_false, ih, List.mem_cons]
        constructor
        · rintro ⟨l, hl, p, h1, h2, h3⟩
          exact ⟨l, Or.inr hl, p, h1, h2, h3⟩
        · rintro ⟨l, hl | hl, p, h1, h2, h3⟩
          · subst hl
            rw [hp] at h1
            cases h1
            exact absurd h2 hh
          · exact ⟨l, hl, p, h1, h2, h3⟩

theorem mergeFuel_single (l : List String) :
    ∀ (choices : List Nat), mergeFuel l.length choices [l] = l := by
  induction l with
  | nil => intro choices; simp [mergeFuel]
  | cons x xs ih =>
    intro choices
    simp [mergeFuel, Nat.mod_one, pick, ih]

theorem merge_single (choices : List Nat) (l : List String) : merge choices [l] = l := by
  simpa [merge] using mergeFuel_single l choices

theorem iterations_succ (W : Nat) (site : String → Option (List String))
    (grow : Nat → Nat → Nat) (sched : List (List Nat)) (n : Nat) (st st1 : CrawlState)
    (h : iteration W site grow (sched.headD []) st = some st1) (hq : 0 < st.queue.length) :
    iterations W site grow sched (n + 1) st = iterations W site grow sched.tail n st1 := by
  rw [iterations, if_pos hq, h]

theorem iterations_done (W : Nat) (site : String → Option (List String))
    (grow : Nat → Nat → Nat) (sched : List (List Nat)) (n : Nat) (st : CrawlState)
    (h : st.queue = []) : iterations W site grow sched n st = some st := by
  cases n <;> simp [iterations, h]

theorem foldl_appendQueue_cap (grow : Nat → Nat → Nat) (hg : ∀ c n, n ≤ grow c n)
    (news : List String) :
    ∀ (q : List String × Nat), q.1.length ≤ q.2 →
      (news.foldl (appendQueue grow) q).1.length ≤ (news.foldl (appendQueue grow) q).2 := by
  induction news with
  | nil => intro q h; simpa using h
  | cons u news ih =>
    intro q h
    simp only [List.foldl]
    apply ih
    simp only [appendQueue, List.length_append, List.length_cons, List.length_nil]
    split_ifs with hlt
    · omega
    · exact hg _ _

theorem iteration_length_le_cap (W : Nat) (site : String → Option (List String))
    (grow : Nat → Nat → Nat) (hg : ∀ c n, n ≤ grow c n) (choices : List Nat)
    (st st' : CrawlState) (hi : st.queue.length ≤ st.cap)
    (h : iteration W site grow choices st = some st') : st'.queue.length ≤ st'.cap := by
  unfold iteration at h
  cases hb : batchOf W st with
  | none => simp [hb] at h
  | some batch =>
    cases hw : workerOutputs site (dispatch batch st.seen).2 with
    | none => simp [hb, hw] at h
    | some outs =>
      have hcap := foldl_appendQueue_cap grow hg (merge choices outs) (st.queue, st.cap) hi
      simp only [hb, hw] at h
      split_ifs at h with h1 h2
      · simp only [Option.some.injEq] at h
        subst h
        simp only [List.length_drop]
        omega
      · simp only [Option.some.injEq] at h
        subst h
        simp only [List.length_drop]
        omega

theorem mem_batchOf_iff (W : Nat) (st : CrawlState) (batch : List String)
    (h : batchOf W st = some batch) (u : String) :
    (u ∈ batch ∧ u ≠ "") ↔ (u ∈ st.queue.take W ∧ u ≠ "") := by
  unfold batchOf at h
  split_ifs at h
  simp only [Option.some.injEq] at h
  subst h
  constructor
  · rintro ⟨h1, h2⟩
    rcases List.mem_append.1 h1 with h3 | h3
    · exact ⟨h3, h2⟩
    · exact absurd (List.eq_of_mem_replicate h3) h2
  · rintro ⟨h1, h2⟩
    exact ⟨List.mem_append_left _ h1, h2⟩

theorem resolveLinks_eq_filterMap {U : Type} (lib : UrlLib U) (baseUrl : U)
    (links : List Link) :
    resolveLinks lib baseUrl links =
      links.filterMap (fun link => (lib.Parse baseUrl link.Href).bind (fun p =>
        if lib.Hostname p = lib.Hostname baseUrl then some (lib.Str p) else none)) := by
  induction links with
  | nil => simp [resolveLinks]
  | cons link rest ih =>
    cases hp : lib.Parse baseUrl link.Href with
    | none => simp [resolveLinks, hp, ih, List.filterMap_cons]
    | some q =>
      by_cases hh : lib.Hostname q = lib.Hostname baseUrl
      · simp [resolveLinks, hp, hh, ih, List.filterMap_cons]
      · simp [resolveLinks, hp, hh, ih, List.filterMap_cons]

theorem crawler_same_host {U : Type} (lib : UrlLib U) (tokens : String → List Token)
    (extras : String → List Nat) (entryPointUrl : U) (page : String) (urls : List String)
    (h : crawler lib tokens extras entryPointUrl page = some urls) :
    ∀ u ∈ urls, SameHostLink lib tokens extras entryPointUrl u := by
  intro u hu
  unfold crawler streamUrls at h
  simp only at h
  split_ifs at h
  simp only [Option.some.injEq] at h
  subst h
  obtain ⟨link, hl, p, h1, h2, h3⟩ := (resolveLinks_mem lib entryPointUrl _ u).1 hu
  exact ⟨page, link, hl, p, h1, h2, h3⟩

/-! ## The claims on the link extractor -/

/-- C2: the token sequence of `<a href="/x" href="/y">t</a>` is one of the claim
(the `a` end tag closes the open `a` start tag, which carries an `href`
attribute), and the specification's extraction gives the link of the anchor;
`StreamLinks` panics on it whenever the attribute loop still delivers the second
`href` after `stopStream` was closed (`close(stopStream)` runs a second time),
and sends the link only when it delivers nothing more. -/
theorem StreamLinks_double_href_panics (e : Nat) (es : List Nat) :
    wellNested 0 doubleHrefTokens = true ∧
    specLinks [] doubleHrefTokens = [{ Href := "/x", Text := "t" }] ∧
    StreamLinks ((e + 1) :: es) doubleHrefTokens = ([], true) ∧
    StreamLinks (0 :: es) doubleHrefTokens = ([{ Href := "/x", Text := "t" }], false) := by
  refine ⟨by decide, by decide, ?_, ?_⟩
  · simp [StreamLinks, parseTokens, parseToken, doubleHrefTokens, startA, scanAttributes,
      drainAttributes]
  · have hc : cleanText "t" = "t" := by decide
    simp [StreamLinks, parseTokens, parseToken, doubleHrefTokens, startA, textToken, endA,
      scanAttributes, drainAttributes, hc]

/-- C6: with an anchor without `href` nested inside an anchor with `href`, or
enclosing one, `StreamLinks` panics at the first `a` end tag (index out of range
on `anchorStack`), whatever the race in the attribute loop, where the
specification expects the link of the anchor with `href`. -/
theorem StreamLinks_nested_no_href_panics (extras : List Nat) :
    StreamLinks extras [startHref "/x", startA [], textToken "t", endA, endA] = ([], true) ∧
    specLinks [] [startHref "/x", startA [], textToken "t", endA, endA] =
      [{ Href := "/x", Text := "" }] ∧
    StreamLinks extras [startA [], startHref "/x", textToken "t", endA, endA] = ([], true) ∧
    specLinks [] [startA [], startHref "/x", textToken "t", endA, endA] =
      [{ Href := "/x", Text := "t" }] := by
  refine ⟨?_, by decide, ?_, by decide⟩
  · cases extras with
    | nil => decide
    | cons e es => cases e <;> rfl
  · cases extras with
    | nil => decide
    | cons e es =>
      cases es with
      | nil => cases e <;> rfl
      | cons e2 es => cases e2 <;> rfl

theorem stateAfter_current (toks : List Token) :
    ∀ (extras : List Nat) (s s' : ParserState),
      s.current = (s.textStack.length : Int) - 1 → stateAfter extras s toks = some s' →
      s'.current = (s'.textStack.length : Int) - 1 := by
  induction toks with
  | nil =>
    intro extras s s' hc h
    simp only [stateAfter, Option.some.injEq] at h
    exact h ▸ hc
  | cons t rest ih =>
    intro extras s s' hc h
    unfold stateAfter at h
    split at h
    · simp at h
    · next s1 out hstep =>
      exact ih extras.tail s1 s' (parseToken_current _ s s1 t out hstep hc) h

theorem parseToken_text_top (extra : Nat) (s : ParserState) (t : Token)
    (hT : t.Typ = TokenType.TextToken) (hc : s.current = (s.textStack.length : Int) - 1) :
    ∃ s', parseToken extra s t = some (s', []) ∧ s'.anchorStack = s.anchorStack ∧
      s'.current = s.current ∧
      s'.textStack = (match s.textStack.getLast? with
        | none => []
        | some top => s.textStack.dropLast ++ [top ++ t.Data]) := by
  rcases List.eq_nil_or_concat s.textStack with hnil | ⟨front, top, hts⟩
  · refine ⟨s, ?_, rfl, rfl, ?_⟩
    · simp [parseToken, hT, hnil]
    · simp [hnil]
  · have hcur : s.current = (front.length : Int) := by
      rw [hc, hts]
      simp
    have hget : (front ++ [top])[front.length]? = some top := by
      rw [List.getElem?_append_right (by simp)]
      simp
    have hset : (front ++ [top]).set front.length (top ++ t.Data) = front ++ [top ++ t.Data] := by
      rw [List.set_append_right _ _ (by simp)]
      simp
    refine ⟨{ s with textStack := front ++ [top ++ t.Data] }, ?_, rfl, rfl, ?_⟩
    · simp [parseToken, hT, hts, hcur, hget, hset]
    · simp [hts]

/-- C15: an `a` end tag that arrives when no anchor is open makes `parseToken`
panic (`textStack[:current]` with `current` at -1), whatever the race in the
attribute loop, also after other tokens; and with an anchor without `href` open
inside an anchor with `href` the `a` end tag panics on `anchorStack[current]`.
The step is not total. -/
theorem parseToken_stray_end_panics (extras : List Nat) (extra : Nat) :
    parseToken extra { anchorStack := [], textStack := [], current := -1 } endA = none ∧
    StreamLinks extras [endA] = ([], true) ∧
    StreamLinks extras [textToken "x", endA] = ([], true) ∧
    parseToken extra { anchorStack := ["/x"], textStack := ["", ""], current := 1 } endA =
      none := by
  refine ⟨?_, ?_, ?_, ?_⟩
  · simp [parseToken, endA]
  · simp [StreamLinks, parseTokens, parseToken, endA]
  · simp [StreamLinks, parseTokens, parseToken, endA, textToken]
  · simp [parseToken, endA]

/-- C16: after every token sequence that `StreamLinks` processes without
failing, from the empty state, `current` is `len(textStack) - 1`, it is -1
exactly when `textStack` is empty, and a text token that follows does not fail
and is added to the top frame of `textStack` and to no other. -/
theorem current_is_top (extras : List Nat) (toks : List Token) (s : ParserState)
    (h : stateAfter extras { anchorStack := [], textStack := [], current := -1 } toks =
      some s) :
    s.current = (s.textStack.length : Int) - 1 ∧
    (s.current = -1 ↔ s.textStack = []) ∧
    (∀ (extra : Nat) (t : Token), t.Typ = TokenType.TextToken →
      ∃ s', parseToken extra s t = some (s', []) ∧ s'.anchorStack = s.anchorStack ∧
        s'.current = s.current ∧
        s'.textStack = (match s.textStack.getLast? with
          | none => []
          | some top => s.textStack.dropLast ++ [top ++ t.Data])) := by
  have hc := stateAfter_current toks extras _ s (by simp) h
  refine ⟨hc, ?_, fun extra t hT => parseToken_text_top extra s t hT hc⟩
  rw [hc]
  constructor
  · intro h0
    have : s.textStack.length = 0 := by omega
    exact List.length_eq_zero.1 this
  · intro h0
    simp [h0]

/-- C16, witness: after the start tag and the first text of the nested example
`current` is 0 and `textStack` has one frame. -/
theorem current_is_top_witness :
    stateAfter [] { anchorStack := [], textStack := [], current := -1 }
        [startHref "/dog", textToken "outer "] =
      some { anchorStack := ["/dog"], textStack := ["outer "], current := 0 } ∧
    (0 : Int) = ((["outer "] : List String).length : Int) - 1 :=
  ⟨by decide,
   (current_is_top [] [startHref "/dog", textToken "outer "]
     { anchorStack := ["/dog"], textStack := ["outer "], current := 0 } (by decide)).1⟩

/-! ## The claims on the crawl loop -/

/-- C1: on the site of the end-to-end scenario with 5 workers the crawl ends,
for every growth rule and every report order of the workers, with `seen` made of
`A`, `B` and `C` only: `D`, appended to the queue in the second iteration, is cut
off by `queue = queue[W:]` without ever being in a batch. -/
theorem crawl_siteABCD_five_workers (grow : Nat → Nat → Nat) (sched : List (List Nat))
    (k : Nat) : crawl 5 siteABCD grow "A" sched (k + 2) = Exit.sitemap ["C", "B", "A"] := by
  have h1 : iteration 5 siteABCD grow (sched.headD [])
      { seen := [], queue := ["A", "", "", "", ""], cap := 10000, visited := [] } =
      some { seen := ["A"], queue := ["B", "C"], cap := 9995, visited := ["A"] } := by
    simp [iteration, batchOf, dispatch, workerOutputs, siteABCD, merge_single, appendQueue]
  have hlen : ∀ c, (merge c [["A", "D"], ["D"]]).length = 3 := by
    intro c
    simpa using (merge_perm c [["A", "D"], ["D"]]).length_eq
  obtain ⟨st2, h2, hs, hq⟩ : ∃ st2, iteration 5 siteABCD grow (sched.tail.headD [])
      { seen := ["A"], queue := ["B", "C"], cap := 9995, visited := ["A"] } = some st2 ∧
      st2.seen = ["C", "B", "A"] ∧ st2.queue = [] := by
    have hb : batchOf 5 { seen := ["A"], queue := ["B", "C"], cap := 9995, visited := ["A"] } =
        some ["B", "C", "", "", ""] := by decide
    have hd : dispatch ["B", "C", "", "", ""] ["A"] = (["C", "B", "A"], ["B", "C"]) := by decide
    have hw : workerOutputs siteABCD ["B", "C"] = some [["A", "D"], ["D"]] := by decide
    simp only [iteration, hb, hd, hw, foldl_appendQueue, List.length_append, hlen,
      List.length_cons, List.length_nil]
    refine ⟨_, rfl, rfl, ?_⟩
    simp [hlen]
  have h0 : init 5 "A" =
      some { seen := [], queue := ["A", "", "", "", ""], cap := 10000, visited := [] } := by
    decide
  rw [crawl, h0]
  simp only []
  rw [iterations_succ _ _ _ _ _ _ _ h1 (by decide), iterations_succ _ _ _ _ _ _ _ h2 (by decide),
    iterations_done _ _ _ _ _ _ hq]
  simp [hq, hs]

/-- C3: in every crawl (every worker count, site, growth rule and report order)
and after any number of iterations, no URL occurs twice among the URLs handed to
a worker. -/
theorem visited_nodup (W : Nat) (site : String → Option (List String))
    (grow : Nat → Nat → Nat) (entryPoint : String) (sched : List (List Nat)) (n : Nat)
    (st0 st : CrawlState) (h0 : init W entryPoint = some st0)
    (h : iterations W site grow sched n st0 = some st) : st.visited.Nodup := by
  obtain ⟨hs, hv, _, _⟩ := init_spec W entryPoint st0 h0
  have := iterations_invariant W site grow
    (fun s => s.visited.Nodup ∧ ∀ u ∈ s.visited, u ∈ s.seen)
    (fun choices s s' hi hs' => iteration_visited W site grow choices s s' hi hs')
    n sched st0 st (by simp [hs, hv]) h
  exact this.1

/-- C3, witness: the crawl of the end-to-end scenario with one worker, where `A`
and `D` each come into the queue twice. -/
theorem visited_nodup_witness :
    iterations 1 siteABCD growDouble [] 7
        { seen := [], queue := ["A"], cap := 10000, visited := [] } =
      some { seen := ["D", "C", "B", "A"], queue := [], cap := 9994,
             visited := ["A", "B", "C", "D"] } ∧
    ["A", "B", "C", "D"].Nodup :=
  ⟨by decide,
   visited_nodup 1 siteABCD growDouble "A" [] 7
     { seen := [], queue := ["A"], cap := 10000, visited := [] }
     { seen := ["D", "C", "B", "A"], queue := [], cap := 9994,
       visited := ["A", "B", "C", "D"] } (by decide) (by decide)⟩

/-- C4: on the site where `A` links to `B` and `C`, `B` to `D` and `C` to `E`,
with 3 workers, the final `seen` depends on which of the workers for `B` and `C`
reports first: the URL received first is cut off the queue with the batch and
never visited. -/
theorem crawl_siteFork_order_matters :
    crawl 3 siteFork growDouble "A" [] 4 = Exit.sitemap ["E", "C", "B", "A"] ∧
    crawl 3 siteFork growDouble "A" [[], [1]] 4 = Exit.sitemap ["D", "C", "B", "A"] := by
  decide

/-- C5: `streamUrls`, as the workers of `main` call it, yields only strings of
URLs that a link resolves to and that have the host name of the entry URL; so at
every iteration boundary of the crawl every member of `seen` is the entry point
or such a URL, and every entry of `queue` is empty, the entry point or such a
URL. -/
theorem seen_same_host {U : Type} (lib : UrlLib U) (tokens : String → List Token)
    (extras : String → List Nat) (entryPointUrl : U) (W : Nat) (grow : Nat → Nat → Nat)
    (entryPoint : String) (sched : List (List Nat)) (n : Nat) (st0 st : CrawlState)
    (h0 : init W entryPoint = some st0)
    (h : iterations W (crawler lib tokens extras entryPointUrl) grow sched n st0 = some st) :
    (∀ page urls, streamUrls lib tokens extras page entryPointUrl = some urls →
      ∀ u ∈ urls, SameHostLink lib tokens extras entryPointUrl u) ∧
    (∀ u ∈ st.seen, u = entryPoint ∨ SameHostLink lib tokens extras entryPointUrl u) ∧
    (∀ u ∈ st.queue,
      u = "" ∨ u = entryPoint ∨ SameHostLink lib tokens extras entryPointUrl u) := by
  obtain ⟨hs, _, _, hq⟩ := init_spec W entryPoint st0 h0
  have hsite : ∀ u l, crawler lib tokens extras entryPointUrl u = some l →
      ∀ v ∈ l, v = entryPoint ∨ SameHostLink lib tokens extras entryPointUrl v :=
    fun u l hl v hv => Or.inr (crawler_same_host lib tokens extras entryPointUrl u l hl v hv)
  have hinit : (∀ u ∈ st0.seen, u = entryPoint ∨
        SameHostLink lib tokens extras entryPointUrl u) ∧
      ∀ u ∈ st0.queue, u = "" ∨ (u = entryPoint ∨
        SameHostLink lib tokens extras entryPointUrl u) := by
    rw [hs, hq]
    refine ⟨by simp, ?_⟩
    intro u hu
    rcases List.mem_cons.1 hu with h1 | h1
    · exact Or.inr (Or.inl h1)
    · exact Or.inl (List.eq_of_mem_replicate h1)
  have := iterations_invariant W (crawler lib tokens extras entryPointUrl) grow
    (fun s => (∀ u ∈ s.seen, u = entryPoint ∨
        SameHostLink lib tokens extras entryPointUrl u) ∧
      ∀ u ∈ s.queue, u = "" ∨ (u = entryPoint ∨
        SameHostLink lib tokens extras entryPointUrl u))
    (fun choices s s' hi hs' => iteration_members W _ grow _ hsite choices s s' hi hs')
    n sched st0 st hinit h
  exact ⟨fun page urls hp => crawler_same_host lib tokens extras entryPointUrl page urls hp,
    this.1, this.2⟩

/-- C5, witness: the crawl of the small site, whose entry page also links to
another host. -/
theorem seen_same_host_witness :
    iterations 1 (crawler sampleLib samplePages noExtras { Host := "h", Path := "/" })
        growDouble [] 4
        { seen := [], queue := ["http://h/"], cap := 10000, visited := [] } =
      some { seen := ["http://h/x", "http://h/dir/page", "http://h/"], queue := [],
             cap := 9997, visited := ["http://h/", "http://h/dir/page", "http://h/x"] } ∧
    ∀ u ∈ ["http://h/x", "http://h/dir/page", "http://h/"],
      u = "http://h/" ∨
        SameHostLink sampleLib samplePages noExtras { Host := "h", Path := "/" } u :=
  ⟨by decide,
   (seen_same_host sampleLib samplePages noExtras { Host := "h", Path := "/" } 1 growDouble
     "http://h/" [] 4 { seen := [], queue := ["http://h/"], cap := 10000, visited := [] }
     { seen := ["http://h/x", "http://h/dir/page", "http://h/"], queue := [],
       cap := 9997, visited := ["http://h/", "http://h/dir/page", "http://h/x"] }
     (by decide) (by decide)).2.1⟩

/-- C7, counterexample: for the page `http://h/dir/page` of the small site, with
the relative link `x`, the worker yields `http://h/x`, the link resolved against
the entry URL `http://h/`; resolved against the URL of the page it would be
`http://h/dir/x`. -/
theorem crawler_not_against_page :
    sampleLib.UrlParse "http://h/" = some { Host := "h", Path := "/" } ∧
    crawler sampleLib samplePages noExtras { Host := "h", Path := "/" } "http://h/dir/page" =
      some ["http://h/x"] ∧
    (sampleLib.UrlParse "http://h/dir/page").map (fun pageUrl =>
        resolveLinks sampleLib pageUrl (StreamLinks [] (samplePages "http://h/dir/page")).1) =
      some ["http://h/dir/x"] := by
  decide

/-- C7 (amended): for every page `P`, what the worker of `main` yields for the
links extracted from `P` is, in order, each `Href` resolved against the entry URL
(the base URL that `main` hands over for every page), not against `P`; a link
whose resolution fails is skipped, as is one with another host name. -/
theorem crawler_resolves_against_entry {U : Type} (lib : UrlLib U)
    (tokens : String → List Token) (extras : String → List Nat) (entryPointUrl : U)
    (P : String) (urls : List String)
    (h : crawler lib tokens extras entryPointUrl P = some urls) :
    urls = (StreamLinks (extras P) (tokens P)).1.filterMap (fun link =>
      (lib.Parse entryPointUrl link.Href).bind (fun p =>
        if lib.Hostname p = lib.Hostname entryPointUrl then some (lib.Str p) else none)) := by
  unfold crawler streamUrls at h
  simp only at h
  split_ifs at h
  simp only [Option.some.injEq] at h
  rw [← h, resolveLinks_eq_filterMap]

/-- C7 (amended), witness: the page `http://h/dir/page` of the small site. -/
theorem crawler_resolves_against_entry_witness :
    ["http://h/x"] = (StreamLinks (noExtras "http://h/dir/page")
        (samplePages "http://h/dir/page")).1.filterMap (fun link =>
      (sampleLib.Parse { Host := "h", Path := "/" } link.Href).bind (fun p =>
        if sampleLib.Hostname p = sampleLib.Hostname { Host := "h", Path := "/" }
        then some (sampleLib.Str p) else none)) :=
  crawler_resolves_against_entry sampleLib samplePages noExtras { Host := "h", Path := "/" }
    "http://h/dir/page" ["http://h/x"] (by decide)

/-- C8, counterexample: at the start of the crawl the entry URL is in `queue`
and `seen` is empty, and after the first iteration `B` and `C` are in `queue`
while `seen` holds `A` only. -/
theorem queue_not_in_seen :
    init 1 "A" = some { seen := [], queue := ["A"], cap := 10000, visited := [] } ∧
    iterations 1 siteABCD growDouble [] 1
        { seen := [], queue := ["A"], cap := 10000, visited := [] } =
      some { seen := ["A"], queue := ["B", "C"], cap := 9999, visited := ["A"] } := by
  decide

/-- C8 (amended): a URL enters `seen` at the step in which it is taken from the
head of `queue` in a batch, not when it is appended: after an iteration `seen`
holds exactly its former members and the non-empty URLs among the first `W`
entries that `queue` had. -/
theorem seen_grows_by_batch (W : Nat) (site : String → Option (List String))
    (grow : Nat → Nat → Nat) (choices : List Nat) (st st' : CrawlState)
    (h : iteration W site grow choices st = some st') (u : String) :
    u ∈ st'.seen ↔ u ∈ st.seen ∨ (u ∈ st.queue.take W ∧ u ≠ "") := by
  obtain ⟨batch, outs, hb, _, hseen, _, _⟩ := iteration_spec W site grow choices st st' h
  rw [hseen, dispatch_seen, mem_batchOf_iff W st batch hb]

/-- C8 (amended), witness: the second iteration of the end-to-end scenario with
two workers: `B`, taken from the head of the queue, enters `seen`, the appended
`D` does not. -/
theorem seen_grows_by_batch_witness :
    iteration 2 siteABCD growDouble [1, 0, 0]
        { seen := ["A"], queue := ["B", "C"], cap := 9998, visited := ["A"] } =
      some { seen := ["C", "B", "A"], queue := ["D", "A", "D"], cap := 9996,
             visited := ["A", "B", "C"] } ∧
    ("B" ∈ ["C", "B", "A"] ↔ "B" ∈ ["A"] ∨ ("B" ∈ ["B", "C"].take 2 ∧ "B" ≠ "")) ∧
    ("D" ∈ ["C", "B", "A"] ↔ "D" ∈ ["A"] ∨ ("D" ∈ ["B", "C"].take 2 ∧ "D" ≠ "")) :=
  ⟨by decide,
   seen_grows_by_batch 2 siteABCD growDouble [1, 0, 0]
    { seen := ["A"], queue := ["B", "C"], cap := 9998, visited := ["A"] }
    { seen := ["C", "B", "A"], queue := ["D", "A", "D"], cap := 9996,
      visited := ["A", "B", "C"] } (by decide) "B",
   seen_grows_by_batch 2 siteABCD growDouble [1, 0, 0]
    { seen := ["A"], queue := ["B", "C"], cap := 9998, visited := ["A"] }
    { seen := ["C", "B", "A"], queue := ["D", "A", "D"], cap := 9996,
      visited := ["A", "B", "C"] } (by decide) "D"⟩

/-- C9, counterexample: in the end-to-end scenario with one worker the queue is
`A`, `D`, `D` after three iterations: `A` was appended while it was in `seen`,
and `D` was appended twice. -/
theorem queue_holds_seen_and_duplicates :
    iterations 1 siteABCD growDouble [] 3
        { seen := [], queue := ["A"], cap := 10000, visited := [] } =
      some { seen := ["C", "B", "A"], queue := ["A", "D", "D"], cap := 9997,
             visited := ["A", "B", "C"] } := by
  decide

/-- C9 (amended): when the control loop drains the discovery channel, every URL
reported by a worker of the batch is appended to the tail of `queue`, whether or
not it is in `seen`: the queue after the iteration is the old queue followed by
all reported URLs in some order, without its first `W` entries (or its first
entry). -/
theorem appended_whether_seen_or_not (W : Nat) (site : String → Option (List String))
    (grow : Nat → Nat → Nat) (choices : List Nat) (st st' : CrawlState)
    (h : iteration W site grow choices st = some st') :
    ∃ batch outs news, batchOf W st = some batch ∧
      workerOutputs site (dispatch batch st.seen).2 = some outs ∧
      news.Perm outs.flatten ∧
      (st'.queue = (st.queue ++ news).drop W ∨ st'.queue = (st.queue ++ news).drop 1) := by
  obtain ⟨batch, outs, hb, hw, _, _, hq⟩ := iteration_spec W site grow choices st st' h
  refine ⟨batch, outs, merge choices outs, hb, hw, merge_perm choices outs, ?_⟩
  rcases hq with ⟨_, e⟩ | ⟨_, e⟩
  · exact Or.inl e
  · exact Or.inr e

/-- C9 (amended), witness: the second iteration of the end-to-end scenario with
two workers, where `A` is appended although it is in `seen`, and `D` twice. -/
theorem appended_whether_seen_or_not_witness :
    ∃ batch outs news,
      batchOf 2 { seen := ["A"], queue := ["B", "C"], cap := 9998, visited := ["A"] } =
        some batch ∧
      workerOutputs siteABCD (dispatch batch ["A"]).2 = some outs ∧
      news.Perm outs.flatten ∧
      (["D", "A", "D"] = (["B", "C"] ++ news).drop 2 ∨
        ["D", "A", "D"] = (["B", "C"] ++ news).drop 1) :=
  appended_whether_seen_or_not 2 siteABCD growDouble [1, 0, 0]
    { seen := ["A"], queue := ["B", "C"], cap := 9998, visited := ["A"] }
    { seen := ["C", "B", "A"], queue := ["D", "A", "D"], cap := 9996,
      visited := ["A", "B", "C"] } (by decide)

/-- C14, counterexample: with 6 workers and the queue `B`, `C` the batch is `B`,
`C` and four empty strings, and the iteration removes `B` only; with 5 workers
the iteration removes `B`, `C` and the three URLs discovered meanwhile. -/
theorem removed_is_not_the_batch :
    batchOf 6 { seen := ["A"], queue := ["B", "C"], cap := 9994, visited := ["A"] } =
      some ["B", "C", "", "", "", ""] ∧
    iteration 6 siteABCD growDouble []
        { seen := ["A"], queue := ["B", "C"], cap := 9994, visited := ["A"] } =
      some { seen := ["C", "B", "A"], queue := ["C", "A", "D", "D"], cap := 9993,
             visited := ["A", "B", "C"] } ∧
    iteration 5 siteABCD growDouble []
        { seen := ["A"], queue := ["B", "C"], cap := 9995, visited := ["A"] } =
      some { seen := ["C", "B", "A"], queue := [], cap := 9990,
             visited := ["A", "B", "C"] } := by
  decide

/-- C14 (amended): in every iteration, when `queue` holds at least `W` entries at
the start, the batch is its first `W` entries, these are the entries removed at
the end, and every URL discovered during the iteration stays in `queue`; when
`queue` with the URLs discovered during the iteration still holds fewer than `W`
entries, only its first entry is removed, and the rest of the batch stays in
`queue`. -/
theorem removed_from_queue (W : Nat) (site : String → Option (List String))
    (grow : Nat → Nat → Nat) (choices : List Nat) (st st' : CrawlState)
    (h : iteration W site grow choices st = some st') :
    ∃ batch outs, batchOf W st = some batch ∧
      workerOutputs site (dispatch batch st.seen).2 = some outs ∧
      (W ≤ st.queue.length →
        batch = st.queue.take W ∧ st'.queue = st.queue.drop W ++ merge choices outs) ∧
      (0 < st.queue.length → (st.queue ++ merge choices outs).length < W →
        st'.queue = st.queue.drop 1 ++ merge choices outs) := by
  obtain ⟨batch, outs, hb, hw, _, _, hq⟩ := iteration_spec W site grow choices st st' h
  refine ⟨batch, outs, hb, hw, ?_, ?_⟩
  · intro hW
    constructor
    · unfold batchOf at hb
      split_ifs at hb
      simp only [Option.some.injEq] at hb
      rw [← hb, Nat.sub_eq_zero_of_le hW]
      simp
    · rcases hq with ⟨_, e⟩ | ⟨hlt, _⟩
      · rw [e, List.drop_append_of_le_length hW]
      · simp only [List.length_append] at hlt
        omega
  · intro hpos hlt
    rcases hq with ⟨hle, _⟩ | ⟨_, e⟩
    · omega
    · rw [e, List.drop_append_of_le_length hpos]

/-- C14 (amended), witness: the iteration with 6 workers on the queue `B`, `C`. -/
theorem removed_from_queue_witness :
    ∃ batch outs,
      batchOf 6 { seen := ["A"], queue := ["B", "C"], cap := 9994, visited := ["A"] } =
        some batch ∧
      workerOutputs siteABCD (dispatch batch ["A"]).2 = some outs ∧
      (6 ≤ ["B", "C"].length →
        batch = ["B", "C"].take 6 ∧
          ["C", "A", "D", "D"] = ["B", "C"].drop 6 ++ merge [] outs) ∧
      (0 < ["B", "C"].length → (["B", "C"] ++ merge [] outs).length < 6 →
        ["C", "A", "D", "D"] = ["B", "C"].drop 1 ++ merge [] outs) :=
  removed_from_queue 6 siteABCD growDouble []
    { seen := ["A"], queue := ["B", "C"], cap := 9994, visited := ["A"] }
    { seen := ["C", "B", "A"], queue := ["C", "A", "D", "D"], cap := 9993,
      visited := ["A", "B", "C"] } (by decide)

theorem workerOutputs_cancelled (d : List String) :
    workerOutputs cancelled d = some (List.replicate d.length []) := by
  induction d with
  | nil => simp [workerOutputs]
  | cons u d ih => simp [workerOutputs, cancelled, ih, List.replicate_succ]

theorem merge_cancelled (choices : List Nat) (n : Nat) :
    merge choices (List.replicate n ([] : List String)) = [] := by
  have hflat : (List.replicate n ([] : List String)).flatten = [] := by
    induction n with
    | zero => rfl
    | succ n ih => simp [List.replicate_succ]
  have := merge_perm choices (List.replicate n ([] : List String))
  rw [hflat] at this
  exact List.Perm.eq_nil this

theorem mem_dispatch_new (batch seen : List String) (u : String) :
    u ∈ (dispatch batch seen).2 ↔ u ∈ batch ∧ u ≠ "" ∧ u ∉ seen := by
  obtain ⟨_, hnew, hmem⟩ := dispatch_new batch seen
  constructor
  · intro hu
    exact ⟨(hnew u hu).2.1, (hnew u hu).2.2, (hnew u hu).1⟩
  · rintro ⟨h1, h2, h3⟩
    have : u ∈ (dispatch batch seen).1 := (dispatch_seen batch seen u).2 (Or.inr ⟨h1, h2⟩)
    rcases (hmem u).1 this with h | h
    · exact absurd h h3
    · exact h

theorem cancelled_iteration (W : Nat) (grow : Nat → Nat → Nat) (choices : List Nat)
    (st : CrawlState) (hq : 0 < st.queue.length) (hcap : W ≤ st.cap) :
    ∃ st', iteration W cancelled grow choices st = some st' ∧
      (∀ u, u ∈ st'.seen ↔ u ∈ st.seen ∨ (u ∈ st.queue.take W ∧ u ≠ "")) ∧
      (∀ u, u ∈ st'.visited ↔
        u ∈ st.visited ∨ (u ∈ st.queue.take W ∧ u ≠ "" ∧ u ∉ st.seen)) ∧
      ((W ≤ st.queue.length ∧ st'.queue = st.queue.drop W ∧ st'.cap = st.cap - W) ∨
       (st.queue.length < W ∧ st'.queue = st.queue.drop 1 ∧ st'.cap = st.cap - 1)) := by
  obtain ⟨b, hb⟩ : ∃ b, batchOf W st = some b := by
    simp [batchOf, hcap]
  have hseen : ∀ u, u ∈ (dispatch b st.seen).1 ↔
      u ∈ st.seen ∨ (u ∈ st.queue.take W ∧ u ≠ "") := by
    intro u
    rw [dispatch_seen, mem_batchOf_iff W st _ hb]
  have hvis : ∀ u, u ∈ (dispatch b st.seen).2 ↔
      u ∈ st.queue.take W ∧ u ≠ "" ∧ u ∉ st.seen := by
    intro u
    rw [mem_dispatch_new]
    have := mem_batchOf_iff W st _ hb u
    constructor
    · rintro ⟨h1, h2, h3⟩
      exact ⟨(this.1 ⟨h1, h2⟩).1, h2, h3⟩
    · rintro ⟨h1, h2, h3⟩
      exact ⟨(this.2 ⟨h1, h2⟩).1, h2, h3⟩
  by_cases hW : W ≤ st.queue.length
  · have hit : iteration W cancelled grow choices st =
        some ⟨(dispatch b st.seen).1, st.queue.drop W, st.cap - W,
          st.visited ++ (dispatch b st.seen).2⟩ := by
      simp only [iteration, hb, workerOutputs_cancelled, merge_cancelled, List.foldl_nil,
        if_pos hW]
    refine ⟨_, hit, hseen, ?_, Or.inl ⟨hW, rfl, rfl⟩⟩
    intro u
    simp only [List.mem_append, hvis]
  · have h1 : 1 ≤ st.queue.length := hq
    have hit : iteration W cancelled grow choices st =
        some ⟨(dispatch b st.seen).1, st.queue.drop 1, st.cap - 1,
          st.visited ++ (dispatch b st.seen).2⟩ := by
      simp only [iteration, hb, workerOutputs_cancelled, merge_cancelled, List.foldl_nil,
        if_neg hW, if_pos h1]
    refine ⟨_, hit, hseen, ?_, Or.inr ⟨Nat.lt_of_not_le hW, rfl, rfl⟩⟩
    intro u
    simp only [List.mem_append, hvis]

theorem cancelled_loop (W : Nat) (grow : Nat → Nat → Nat) (hW : 1 ≤ W) (n : Nat) :
    ∀ (sched : List (List Nat)) (st : CrawlState), st.queue.length ≤ n →
      st.queue.length + W ≤ st.cap + 1 →
      ∃ st', iterations W cancelled grow sched n st = some st' ∧ st'.queue = [] ∧
        (∀ u, u ∈ st'.seen ↔ u ∈ st.seen ∨ (u ∈ st.queue ∧ u ≠ "")) ∧
        (∀ u, u ∈ st'.visited ↔
          u ∈ st.visited ∨ (u ∈ st.queue ∧ u ≠ "" ∧ u ∉ st.seen)) := by
  induction n with
  | zero =>
    intro sched st hn _
    have hq : st.queue = [] := List.length_eq_zero.1 (Nat.le_zero.1 hn)
    exact ⟨st, rfl, hq, by simp [hq], by simp [hq]⟩
  | succ n ih =>
    intro sched st hn hcap
    by_cases hq : st.queue = []
    · exact ⟨st, iterations_done _ _ _ _ _ _ hq, hq, by simp [hq], by simp [hq]⟩
    · have hpos : 0 < st.queue.length := List.length_pos.2 hq
      obtain ⟨st1, h1, hs1, hv1, hq1⟩ :=
        cancelled_iteration W grow (sched.headD []) st hpos (by omega)
      have hlen1 : st1.queue.length ≤ n ∧ st1.queue.length + W ≤ st1.cap + 1 := by
        rcases hq1 with ⟨h2, e, ec⟩ | ⟨h2, e, ec⟩
        · rw [e, ec, List.length_drop]
          omega
        · rw [e, ec, List.length_drop]
          omega
      obtain ⟨st', h', hq', hs', hv'⟩ := ih sched.tail st1 hlen1.1 hlen1.2
      have hsub : ∀ u, u ∈ st.queue ↔ u ∈ st.queue.take W ∨ u ∈ st1.queue := by
        intro u
        rcases hq1 with ⟨_, e, _⟩ | ⟨h2, e, _⟩
        · rw [e]
          conv_lhs => rw [← List.take_append_drop W st.queue]
          exact List.mem_append
        · rw [e, List.take_of_length_le (Nat.le_of_lt h2)]
          constructor
          · exact Or.inl
          · rintro (h3 | h3)
            · exact h3
            · exact List.mem_of_mem_drop h3
      refine ⟨st', ?_, hq', ?_, ?_⟩
      · rw [iterations_succ _ _ _ _ _ _ _ h1 hpos]
        exact h'
      · intro u
        rw [hs' u, hs1 u, hsub u]
        tauto
      · intro u
        rw [hv' u, hv1 u, hs1 u, hsub u]
        tauto

/-- C13, counterexample: the cancellation is raised after the first iteration of
the end-to-end scenario with one worker, with `seen` holding `A` and the queue
`B`, `C`; the loop runs two more iterations, starts a worker for `B` and one for
`C` and adds both to `seen`. -/
theorem loop_goes_on_after_cancellation :
    iterations 1 siteABCD growDouble [] 1
        { seen := [], queue := ["A"], cap := 10000, visited := [] } =
      some { seen := ["A"], queue := ["B", "C"], cap := 9999, visited := ["A"] } ∧
    iterations 1 cancelled growDouble [] 1
        { seen := ["A"], queue := ["B", "C"], cap := 9999, visited := ["A"] } =
      some { seen := ["B", "A"], queue := ["C"], cap := 9998, visited := ["A", "B"] } ∧
    iterations 1 cancelled growDouble [] 2
        { seen := ["A"], queue := ["B", "C"], cap := 9999, visited := ["A"] } =
      some { seen := ["C", "B", "A"], queue := [], cap := 9997,
             visited := ["A", "B", "C"] } := by
  decide

/-- C13 (amended): once the cancellation signal has been raised the workers yield
nothing, so nothing is appended to `queue`, but the control loop does not test
the signal: with enough spare capacity for `queue[:W]` it runs until `queue` is
empty, starts a worker for every non-empty URL of the remaining queue that is
not in `seen`, and returns `seen` as it was at the cancellation together with
the non-empty URLs that were still in `queue`. -/
theorem loop_after_cancellation (W : Nat) (grow : Nat → Nat → Nat)
    (sched : List (List Nat)) (n : Nat) (st : CrawlState) (hW : 1 ≤ W)
    (hn : st.queue.length ≤ n) (hcap : st.queue.length + W ≤ st.cap + 1) :
    ∃ st', iterations W cancelled grow sched n st = some st' ∧ st'.queue = [] ∧
      (∀ u, u ∈ st'.seen ↔ u ∈ st.seen ∨ (u ∈ st.queue ∧ u ≠ "")) ∧
      (∀ u, u ∈ st'.visited ↔
        u ∈ st.visited ∨ (u ∈ st.queue ∧ u ≠ "" ∧ u ∉ st.seen)) :=
  cancelled_loop W grow hW n sched st hn hcap

/-- C13 (amended), witness: the cancellation after the first iteration of the
end-to-end scenario with one worker. -/
theorem loop_after_cancellation_witness :
    ∃ st', iterations 1 cancelled growDouble [] 2
        { seen := ["A"], queue := ["B", "C"], cap := 9999, visited := ["A"] } = some st' ∧
      st'.queue = [] ∧
      (∀ u, u ∈ st'.seen ↔ u ∈ ["A"] ∨ (u ∈ ["B", "C"] ∧ u ≠ "")) ∧
      (∀ u, u ∈ st'.visited ↔ u ∈ ["A"] ∨ (u ∈ ["B", "C"] ∧ u ≠ "" ∧ u ∉ ["A"])) :=
  loop_after_cancellation 1 growDouble [] 2
    { seen := ["A"], queue := ["B", "C"], cap := 9999, visited := ["A"] }
    (by decide) (by decide) (by decide)

theorem foldl_appendQueue_cap_same (grow : Nat → Nat → Nat) (news : List String) :
    ∀ (q : List String × Nat), q.1.length + news.length ≤ q.2 →
      (news.foldl (appendQueue grow) q).2 = q.2 := by
  induction news with
  | nil => intro q _; rfl
  | cons u news ih =>
    intro q h
    simp only [List.length_cons] at h
    have hlt : q.1.length < q.2 := by omega
    have hq : appendQueue grow q u = (q.1 ++ [u], q.2) := by
      simp [appendQueue, hlt]
    simp only [List.foldl, hq]
    rw [ih]
    simp only [List.length_append, List.length_cons, List.length_nil]
    omega

theorem selfLinks_first (n : Nat) (grow : Nat → Nat → Nat) (choices : List Nat)
    (hn : n + 3 = 10000) :
    iteration 3 (siteSelfLinks n) grow choices
        { seen := [], queue := ["A", "", ""], cap := 10000, visited := [] } =
      some { seen := ["A"], queue := List.replicate n "A", cap := n, visited := ["A"] } := by
  have hb : batchOf 3 { seen := [], queue := ["A", "", ""], cap := 10000, visited := [] } =
      some ["A", "", ""] := by decide
  have hd : dispatch ["A", "", ""] [] = (["A"], ["A"]) := by decide
  have hw : workerOutputs (siteSelfLinks n) ["A"] = some [List.replicate n "A"] := by
    simp [workerOutputs, siteSelfLinks]
  have hcap : ((List.replicate n "A").foldl (appendQueue grow) (["A", "", ""], 10000)).2 =
      10000 := by
    rw [foldl_appendQueue_cap_same]
    simp only [List.length_cons, List.length_nil, List.length_replicate]
    omega
  have hlen : 3 ≤ (["A", "", ""] ++ List.replicate n "A").length := by simp
  simp only [iteration, hb, hd, hw, merge_single, foldl_appendQueue, hcap, if_pos hlen]
  have h3 : 10000 - 3 = n := by omega
  rw [h3]
  rfl

theorem selfLinks_drain (n j cap : Nat) (grow : Nat → Nat → Nat) (choices : List Nat)
    (v : List String) (hcap : 3 ≤ cap) :
    iteration 3 (siteSelfLinks n) grow choices
        { seen := ["A"], queue := List.replicate (j + 3) "A", cap := cap, visited := v } =
      some { seen := ["A"], queue := List.replicate j "A", cap := cap - 3, visited := v } := by
  have hrep : List.replicate (j + 3) "A" = "A" :: "A" :: "A" :: List.replicate j "A" := rfl
  have hb : batchOf 3
      { seen := ["A"], queue := "A" :: "A" :: "A" :: List.replicate j "A", cap := cap,
        visited := v } = some ["A", "A", "A"] := by
    simp [batchOf, hcap]
  have hd : dispatch ["A", "A", "A"] ["A"] = (["A"], []) := by decide
  have hm : merge choices [] = [] := by simp [merge, mergeFuel]
  have hlen : 3 ≤ ("A" :: "A" :: "A" :: List.replicate j "A").length := by simp
  rw [hrep]
  simp only [iteration, hb, hd, workerOutputs, hm, List.foldl_nil, if_pos hlen,
    List.append_nil, List.drop_succ_cons, List.drop_zero]

theorem selfLinks_loop (n : Nat) (grow : Nat → Nat → Nat) (k : Nat) :
    ∀ (sched : List (List Nat)) (fuel : Nat) (v : List String),
      iterations 3 (siteSelfLinks n) grow sched (k + 1 + fuel)
        { seen := ["A"], queue := List.replicate (3 * k + 1) "A", cap := 3 * k + 1,
          visited := v } = none := by
  induction k with
  | zero =>
    intro sched fuel v
    have hf : 0 + 1 + fuel = fuel + 1 := by omega
    rw [hf]
    simp [iterations, iteration, batchOf]
  | succ k ih =>
    intro sched fuel v
    have hf : k + 1 + 1 + fuel = (k + 1 + fuel) + 1 := by omega
    have hq : 3 * (k + 1) + 1 = (3 * k + 1) + 3 := by omega
    rw [hf, hq]
    rw [iterations_succ _ _ _ _ _ _ _
      (selfLinks_drain n (3 * k + 1) (3 * k + 1 + 3) grow (sched.headD []) v (by omega))
      (by simp)]
    have hc : 3 * k + 1 + 3 - 3 = 3 * k + 1 := by omega
    rw [hc]
    exact ih sched.tail fuel v

theorem selfLinks_states (n : Nat) (grow : Nat → Nat → Nat) (r : Nat) (hr : 0 < r) (k : Nat) :
    ∀ (sched : List (List Nat)) (v : List String),
      iterations 3 (siteSelfLinks n) grow sched k
        { seen := ["A"], queue := List.replicate (3 * k + r) "A", cap := 3 * k + r,
          visited := v } =
      some { seen := ["A"], queue := List.replicate r "A", cap := r, visited := v } := by
  induction k with
  | zero =>
    intro sched v
    simp [iterations]
  | succ k ih =>
    intro sched v
    have hq : 3 * (k + 1) + r = (3 * k + r) + 3 := by omega
    rw [hq]
    rw [iterations_succ _ _ _ _ _ _ _
      (selfLinks_drain n (3 * k + r) (3 * k + r + 3) grow (sched.headD []) v (by omega))
      (by simp)]
    have hc : 3 * k + r + 3 - 3 = 3 * k + r := by omega
    rw [hc]
    exact ih sched.tail v

/-- C12: with 3 workers on the site whose only page `A` has 9997 links to itself,
for every growth rule and every report order, the crawl panics in its 3334th
iteration, with one URL left in `queue`: the capacity of `queue` has shrunk to 1
and `queue[:3]` is out of range. With more than 10000 workers the crawl panics
at `make`. -/
theorem crawl_panics_on_short_capacity (grow : Nat → Nat → Nat) (sched : List (List Nat))
    (k : Nat) :
    crawl 3 (siteSelfLinks 9997) grow "A" sched (3334 + k) = Exit.panic ∧
    iterations 3 (siteSelfLinks 9997) grow sched 3333
        { seen := [], queue := ["A", "", ""], cap := 10000, visited := [] } =
      some { seen := ["A"], queue := ["A"], cap := 1, visited := ["A"] } ∧
    crawl 10001 siteABCD grow "A" sched k = Exit.panic := by
  have h0 : init 3 "A" =
      some { seen := [], queue := ["A", "", ""], cap := 10000, visited := [] } := by
    decide
  have hfirst := selfLinks_first 9997 grow (sched.headD []) (by norm_num)
  have e : 3 * 3332 + 1 = 9997 := by norm_num
  refine ⟨?_, ?_, ?_⟩
  · have hloop := selfLinks_loop 9997 grow 3332 sched.tail k ["A"]
    rw [e] at hloop
    have hf : 3334 + k = (3332 + 1 + k) + 1 := by omega
    rw [crawl, h0]
    simp only []
    rw [hf, iterations_succ _ _ _ _ _ _ _ hfirst (by decide), hloop]
  · have hst := selfLinks_states 9997 grow 1 (by norm_num) 3332 sched.tail ["A"]
    rw [e] at hst
    have hf : 3333 = 3332 + 1 := by norm_num
    rw [hf, iterations_succ _ _ _ _ _ _ _ hfirst (by decide), hst]
    rfl
  · have h1 : init 10001 "A" = none := by decide
    rw [crawl, h1]

theorem yielded_reachable (site : String → Option (List String)) (entry : String)
    (L : List String) (h : YieldedFromEarlier site entry L) :
    ∀ u ∈ L, Reachable site entry u := by
  induction L with
  | nil => intro u hu; simp at hu
  | cons x L ih =>
    obtain ⟨hx, hL⟩ := h
    intro u hu
    rcases List.mem_cons.1 hu with rfl | hu
    · rcases hx with rfl | ⟨p, hp, l, hl, hul⟩
      · exact Reachable.start
      · exact Reachable.step p u l (ih hL p hp) hl hul
    · exact ih hL u hu

theorem yielded_dispatch (site : String → Option (List String)) (entry : String)
    (batch : List String) :
    ∀ (seen : List String), YieldedFromEarlier site entry seen →
      (∀ u ∈ batch, u = "" ∨ u = entry ∨ ∃ p ∈ seen, ∃ l, site p = some l ∧ u ∈ l) →
      YieldedFromEarlier site entry (dispatch batch seen).1 := by
  induction batch with
  | nil => intro seen hs _; simpa [dispatch] using hs
  | cons url rest ih =>
    intro seen hs hb
    by_cases h : url = "" ∨ url ∈ seen
    · simp only [dispatch, h, if_true]
      exact ih seen hs (fun u hu => hb u (List.mem_cons_of_mem _ hu))
    · simp only [dispatch, h, if_false]
      push_neg at h
      apply ih (url :: seen)
      · refine ⟨?_, hs⟩
        rcases hb url (by simp) with h1 | h1 | h1
        · exact absurd h1 h.1
        · exact Or.inl h1
        · exact Or.inr h1
      · intro u hu
        rcases hb u (List.mem_cons_of_mem _ hu) with h1 | h1 | ⟨p, hp, l, hl, hul⟩
        · exact Or.inl h1
        · exact Or.inr (Or.inl h1)
        · exact Or.inr (Or.inr ⟨p, List.mem_cons_of_mem _ hp, l, hl, hul⟩)

theorem iteration_yielded (W : Nat) (site : String → Option (List String))
    (grow : Nat → Nat → Nat) (entry : String) (choices : List Nat) (st st' : CrawlState)
    (hi : YieldedFromEarlier site entry st.seen ∧ "" ∉ st.seen ∧
      ∀ u ∈ st.queue, u = "" ∨ u = entry ∨ ∃ p ∈ st.seen, ∃ l, site p = some l ∧ u ∈ l)
    (h : iteration W site grow choices st = some st') :
    YieldedFromEarlier site entry st'.seen ∧ "" ∉ st'.seen ∧
      ∀ u ∈ st'.queue, u = "" ∨ u = entry ∨ ∃ p ∈ st'.seen, ∃ l, site p = some l ∧ u ∈ l := by
  obtain ⟨hy, he, hqi⟩ := hi
  obtain ⟨batch, outs, hb, hw, hseen, _, hq⟩ := iteration_spec W site grow choices st st' h
  have hbatch : ∀ u ∈ batch, u = "" ∨ u = entry ∨
      ∃ p ∈ st.seen, ∃ l, site p = some l ∧ u ∈ l := by
    intro u hu
    rcases mem_batchOf W st batch hb u hu with h1 | h1
    · exact Or.inl h1
    · exact hqi u h1
  refine ⟨?_, ?_, ?_⟩
  · rw [hseen]
    exact yielded_dispatch site entry batch st.seen hy hbatch
  · rw [hseen, dispatch_seen]
    rintro (h1 | ⟨_, h2⟩)
    · exact he h1
    · exact h2 rfl
  · intro u hu
    have hmem : u ∈ st.queue ++ merge choices outs := by
      rcases hq with ⟨_, e⟩ | ⟨_, e⟩
      · rw [e] at hu; exact List.mem_of_mem_drop hu
      · rw [e] at hu; exact List.mem_of_mem_drop hu
    rcases List.mem_append.1 hmem with h1 | h1
    · rcases hqi u h1 with h2 | h2 | ⟨p, hp, l, hl, hul⟩
      · exact Or.inl h2
      · exact Or.inr (Or.inl h2)
      · refine Or.inr (Or.inr ⟨p, ?_, l, hl, hul⟩)
        rw [hseen, dispatch_seen]
        exact Or.inl hp
    · have hu' : u ∈ outs.flatten := (merge_perm choices outs).subset h1
      obtain ⟨l, hl, hul⟩ := List.mem_flatten.1 hu'
      obtain ⟨d, hd, hdl⟩ := workerOutputs_source site _ outs hw l hl
      refine Or.inr (Or.inr ⟨d, ?_, l, hdl, hul⟩)
      rw [hseen]
      exact ((dispatch_new batch st.seen).2.2 d).2 (Or.inr hd)

theorem iterations_yielded (W : Nat) (site : String → Option (List String))
    (grow : Nat → Nat → Nat) (entryPoint : String) (sched : List (List Nat)) (n : Nat)
    (st0 st : CrawlState) (h0 : init W entryPoint = some st0)
    (h : iterations W site grow sched n st0 = some st) :
    YieldedFromEarlier site entryPoint st.seen ∧ "" ∉ st.seen := by
  obtain ⟨hs, _, _, hq⟩ := init_spec W entryPoint st0 h0
  have hinit : YieldedFromEarlier site entryPoint st0.seen ∧ "" ∉ st0.seen ∧
      ∀ u ∈ st0.queue, u = "" ∨ u = entryPoint ∨
        ∃ p ∈ st0.seen, ∃ l, site p = some l ∧ u ∈ l := by
    rw [hs, hq]
    refine ⟨trivial, by simp, ?_⟩
    intro u hu
    rcases List.mem_cons.1 hu with h1 | h1
    · exact Or.inr (Or.inl h1)
    · exact Or.inl (List.eq_of_mem_replicate h1)
  have := iterations_invariant W site grow
    (fun s => YieldedFromEarlier site entryPoint s.seen ∧ "" ∉ s.seen ∧
      ∀ u ∈ s.queue, u = "" ∨ u = entryPoint ∨
        ∃ p ∈ s.seen, ∃ l, site p = some l ∧ u ∈ l)
    (fun choices s s' hi hs' => iteration_yielded W site grow entryPoint choices s s' hi hs')
    n sched st0 st hinit h
  exact ⟨this.1, this.2.1⟩

/-- C18: in every crawl and at every iteration boundary (so also at the end),
every member of `seen` is reachable from the entry URL, every member other than
the entry URL was yielded by the site for a URL that came into `seen` earlier,
and the empty string is not a member of `seen`. -/
theorem seen_only_reachable (W : Nat) (site : String → Option (List String))
    (grow : Nat → Nat → Nat) (entryPoint : String) (sched : List (List Nat)) (n : Nat)
    (st0 st : CrawlState) (h0 : init W entryPoint = some st0)
    (h : iterations W site grow sched n st0 = some st) :
    (∀ u ∈ st.seen, Reachable site entryPoint u) ∧
    YieldedFromEarlier site entryPoint st.seen ∧ "" ∉ st.seen := by
  obtain ⟨hy, he⟩ := iterations_yielded W site grow entryPoint sched n st0 st h0 h
  exact ⟨yielded_reachable site entryPoint st.seen hy, hy, he⟩

/-- C18, witness: the crawl of the end-to-end scenario with one worker. -/
theorem seen_only_reachable_witness :
    (∀ u ∈ ["D", "C", "B", "A"], Reachable siteABCD "A" u) ∧
    YieldedFromEarlier siteABCD "A" ["D", "C", "B", "A"] ∧ "" ∉ ["D", "C", "B", "A"] :=
  seen_only_reachable 1 siteABCD growDouble "A" [] 7
    { seen := [], queue := ["A"], cap := 10000, visited := [] }
    { seen := ["D", "C", "B", "A"], queue := [], cap := 9994,
      visited := ["A", "B", "C", "D"] } (by decide) (by decide)

theorem mem_firstOccurrences (l : List String) (x : String) :
    x ∈ firstOccurrences l ↔ x ∈ l := by
  induction l with
  | nil => simp [firstOccurrences]
  | cons y l ih =>
    simp only [firstOccurrences, List.mem_cons, List.mem_filter, ih, decide_eq_true_eq]
    by_cases h : x = y
    · simp [h]
    · simp [h]

theorem firstOccurrences_concat (l : List String) (x : String) :
    firstOccurrences (l ++ [x]) =
      if x ∈ l then firstOccurrences l else firstOccurrences l ++ [x] := by
  induction l with
  | nil => simp [firstOccurrences]
  | cons y l ih =>
    rw [List.cons_append, firstOccurrences, ih, firstOccurrences]
    by_cases hxy : x = y
    · subst hxy
      by_cases hx : x ∈ l
      · simp [hx]
      · simp [hx, List.filter_append]
    · by_cases hx : x ∈ l
      · simp [hx]
      · simp [hx, hxy, List.filter_append]

theorem pending_cons_pages (links : String → List String) (x : String)
    (P seen : List String) :
    pending links (x :: P) seen =
      (if x ∈ seen then 0 else (links x).length) + pending links P seen := by
  unfold pending
  by_cases hx : x ∈ seen
  · simp [List.filter_cons, hx]
  · simp [List.filter_cons, hx]

theorem pending_cons_of_not_mem (links : String → List String) (P : List String) :
    ∀ (seen : List String) (h : String), h ∉ P →
      pending links P (h :: seen) = pending links P seen := by
  induction P with
  | nil => intro seen h _; rfl
  | cons x P ih =>
    intro seen h hP
    have hxh : x ≠ h := fun e => hP (by simp [e])
    have hP' : h ∉ P := fun e => hP (List.mem_cons_of_mem _ e)
    rw [pending_cons_pages, pending_cons_pages, ih seen h hP']
    by_cases hx : x ∈ seen
    · simp [hx]
    · simp [hx, hxh]

theorem pending_cons (links : String → List String) (P : List String) :
    ∀ (seen : List String) (h : String), P.Nodup → h ∈ P → h ∉ seen →
      pending links P seen = pending links P (h :: seen) + (links h).length := by
  induction P with
  | nil => intro seen h _ hP; simp at hP
  | cons x P ih =>
    intro seen h hnd hP hs
    obtain ⟨hx, hndP⟩ := List.nodup_cons.1 hnd
    rw [pending_cons_pages, pending_cons_pages]
    by_cases hxh : x = h
    · subst hxh
      rw [pending_cons_of_not_mem links P seen x hx]
      simp only [hs, if_false, List.mem_cons, true_or, if_true]
      omega
    · have hP' : h ∈ P := by
        rcases List.mem_cons.1 hP with e | e
        · exact absurd e.symm hxh
        · exact e
      rw [ih seen h hndP hP' hs]
      by_cases hxs : x ∈ seen
      · simp only [hxs, if_true, List.mem_cons, or_true]
        omega
      · simp only [hxs, if_false, List.mem_cons, hxh, or_self]
        omega

theorem iteration_one_worker (links : String → List String) (grow : Nat → Nat → Nat)
    (choices : List Nat) (st : CrawlState) (h : String) (t : List String)
    (hq : st.queue = h :: t) (hcap : 1 ≤ st.cap) :
    ∃ st', iteration 1 (siteOf links) grow choices st = some st' ∧
      (((h = "" ∨ h ∈ st.seen) ∧ st'.seen = st.seen ∧ st'.queue = t ∧
          st'.visited = st.visited) ∨
       (¬ (h = "" ∨ h ∈ st.seen) ∧ st'.seen = h :: st.seen ∧ st'.queue = t ++ links h ∧
          st'.visited = st.visited ++ [h])) := by
  have hb : batchOf 1 st = some [h] := by
    simp [batchOf, hq, hcap]
  by_cases hskip : h = "" ∨ h ∈ st.seen
  · have hd : dispatch [h] st.seen = (st.seen, []) := by
      simp [dispatch, hskip]
    have hm : merge choices [] = [] := by simp [merge, mergeFuel]
    have hlen : 1 ≤ st.queue.length := by simp [hq]
    have hit : iteration 1 (siteOf links) grow choices st =
        some ⟨st.seen, st.queue.drop 1, st.cap - 1, st.visited ++ []⟩ := by
      simp only [iteration, hb, hd, workerOutputs, hm, List.foldl_nil, if_pos hlen]
    refine ⟨_, hit, Or.inl ⟨hskip, rfl, ?_, ?_⟩⟩
    · simp [hq]
    · simp
  · have hd : dispatch [h] st.seen = (h :: st.seen, [h]) := by
      simp [dispatch, hskip]
    have hw : workerOutputs (siteOf links) [h] = some [links h] := by
      simp [workerOutputs, siteOf]
    have hlen : 1 ≤ (st.queue ++ links h).length := by simp [hq]
    have hit : iteration 1 (siteOf links) grow choices st =
        some ⟨h :: st.seen, (st.queue ++ links h).drop 1,
          ((links h).foldl (appendQueue grow) (st.queue, st.cap)).2 - 1,
          st.visited ++ [h]⟩ := by
      simp only [iteration, hb, hd, hw, merge_single, foldl_appendQueue, if_pos hlen]
    refine ⟨_, hit, Or.inr ⟨hskip, rfl, ?_, rfl⟩⟩
    simp [hq]

theorem bfs_step (links : String → List String) (grow : Nat → Nat → Nat) (entry : String)
    (pages : List String) (hg : ∀ c n, n ≤ grow c n)
    (hclosed : ∀ u ∈ pages, ∀ v ∈ links u, v ∈ pages) (hne : ∀ u ∈ pages, u ≠ "")
    (choices : List Nat) (st : CrawlState) (hi : BfsInv links entry pages st)
    (hq : st.queue ≠ []) :
    ∃ st', iteration 1 (siteOf links) grow choices st = some st' ∧
      BfsInv links entry pages st' ∧
      st'.queue.length + pending links pages.dedup st'.seen + 1 =
        st.queue.length + pending links pages.dedup st.seen := by
  obtain ⟨hpages, hsv, ⟨popped, hhist, hvis⟩, hcap⟩ := hi
  obtain ⟨h, t, hqe⟩ := List.exists_cons_of_ne_nil hq
  have hcap1 : 1 ≤ st.cap := by
    rw [hqe] at hcap
    simp only [List.length_cons] at hcap
    omega
  obtain ⟨st', hit, hshape⟩ := iteration_one_worker links grow choices st h t hqe hcap1
  have hcap' := iteration_length_le_cap 1 (siteOf links) grow hg choices st st' hcap hit
  have hh : h ∈ pages := hpages h (by simp [hqe])
  have hhne : h ≠ "" := hne h hh
  refine ⟨st', hit, ?_, ?_⟩
  · rcases hshape with ⟨hskip, hs, hq', hv⟩ | ⟨hnew, hs, hq', hv⟩
    · have hseen : h ∈ st.seen := by
        rcases hskip with e | e
        · exact absurd e hhne
        · exact e
      have hpop : h ∈ popped := by
        have : h ∈ st.visited := (hsv h).1 hseen
        rw [hvis] at this
        exact (mem_firstOccurrences popped h).1 this
      refine ⟨?_, ?_, ⟨popped ++ [h], ?_, ?_⟩, hcap'⟩
      · intro u hu
        rw [hq'] at hu
        exact hpages u (by simp [hqe, hu])
      · intro u
        rw [hs, hv]
        exact hsv u
      · rw [hv, hq', hhist, hqe]
        simp
      · rw [hv, firstOccurrences_concat, if_pos hpop]
        exact hvis
    · have hseen : h ∉ st.seen := fun e => hnew (Or.inr e)
      have hpop : h ∉ popped := by
        intro e
        have : h ∈ st.visited := by
          rw [hvis]
          exact (mem_firstOccurrences popped h).2 e
        exact hseen ((hsv h).2 this)
      refine ⟨?_, ?_, ⟨popped ++ [h], ?_, ?_⟩, hcap'⟩
      · intro u hu
        rw [hq'] at hu
        rcases List.mem_append.1 hu with e | e
        · exact hpages u (by simp [hqe, e])
        · exact hclosed h hh u e
      · intro u
        rw [hs, hv, List.mem_cons, List.mem_append, List.mem_singleton, hsv u]
        tauto
      · rw [hv, hq', List.flatMap_append]
        have : entry :: (st.visited.flatMap links ++ [h].flatMap links) =
            (entry :: st.visited.flatMap links) ++ links h := by
          simp [List.flatMap]
        rw [this, hhist, hqe]
        simp
      · rw [hv, firstOccurrences_concat, if_neg hpop, hvis]
  · rcases hshape with ⟨hskip, hs, hq', _⟩ | ⟨hnew, hs, hq', _⟩
    · rw [hs, hq', hqe]
      simp only [List.length_cons]
      omega
    · have hseen : h ∉ st.seen := fun e => hnew (Or.inr e)
      have hmem : h ∈ pages.dedup := List.mem_dedup.2 hh
      have := pending_cons links pages.dedup st.seen h (List.nodup_dedup pages) hmem hseen
      rw [hs, hq', hqe, this]
      simp only [List.length_cons, List.length_append]
      omega

theorem bfs_loop (links : String → List String) (grow : Nat → Nat → Nat) (entry : String)
    (pages : List String) (hg : ∀ c n, n ≤ grow c n)
    (hclosed : ∀ u ∈ pages, ∀ v ∈ links u, v ∈ pages) (hne : ∀ u ∈ pages, u ≠ "")
    (n : Nat) :
    ∀ (sched : List (List Nat)) (st : CrawlState), BfsInv links entry pages st →
      st.queue.length + pending links pages.dedup st.seen ≤ n →
      ∃ st', iterations 1 (siteOf links) grow sched n st = some st' ∧ st'.queue = [] ∧
        BfsInv links entry pages st' := by
  induction n with
  | zero =>
    intro sched st hi hn
    have hq : st.queue = [] := List.length_eq_zero.1 (by omega)
    exact ⟨st, rfl, hq, hi⟩
  | succ n ih =>
    intro sched st hi hn
    by_cases hq : st.queue = []
    · exact ⟨st, iterations_done _ _ _ _ _ _ hq, hq, hi⟩
    · obtain ⟨st1, hit, hi1, hm⟩ :=
        bfs_step links grow entry pages hg hclosed hne (sched.headD []) st hi hq
      obtain ⟨st', h', hq', hi'⟩ := ih sched.tail st1 hi1 (by omega)
      refine ⟨st', ?_, hq', hi'⟩
      rw [iterations_succ _ _ _ _ _ _ _ hit (List.length_pos.2 hq)]
      exact h'

/-- C17: with one worker, on every finite site whose URLs are non-empty strings
(the pages in `pages`, which holds the entry URL and, with a page, the URLs it
links to) and with an `append` that allocates at least what is needed, the crawl
ends within a bounded number of iterations, whatever the report order; at the
end `queue` is empty, `seen` is exactly the set of the URLs reachable from the
entry URL, and the dispatched URLs are, in order, the first occurrences in the
sequence of the URLs put into the queue (the entry URL, then the links of the
dispatched URLs in the order of their dispatch). -/
theorem one_worker_breadth_first (links : String → List String) (grow : Nat → Nat → Nat)
    (entry : String) (pages : List String) (hg : ∀ c n, n ≤ grow c n)
    (hentry : entry ∈ pages) (hclosed : ∀ u ∈ pages, ∀ v ∈ links u, v ∈ pages)
    (hne : ∀ u ∈ pages, u ≠ "") :
    ∃ n, ∀ (sched : List (List Nat)) (k : Nat), ∃ st,
      iterations 1 (siteOf links) grow sched (n + k)
        { seen := [], queue := [entry], cap := 10000, visited := [] } = some st ∧
      st.queue = [] ∧
      crawl 1 (siteOf links) grow entry sched (n + k) = Exit.sitemap st.seen ∧
      (∀ u, u ∈ st.seen ↔ Reachable (siteOf links) entry u) ∧
      st.visited = firstOccurrences (entry :: st.visited.flatMap links) := by
  refine ⟨1 + pending links pages.dedup [], fun sched k => ?_⟩
  have h0 : init 1 entry =
      some { seen := [], queue := [entry], cap := 10000, visited := [] } := by
    simp [init]
  have hinv : BfsInv links entry pages
      { seen := [], queue := [entry], cap := 10000, visited := [] } := by
    refine ⟨?_, ?_, ⟨[], ?_, ?_⟩, ?_⟩
    · intro u hu
      simp only [List.mem_singleton] at hu
      exact hu ▸ hentry
    · intro u
      simp
    · simp
    · rfl
    · simp
  obtain ⟨st, hit, hq, hpages, hsv, ⟨popped, hhist, hvis⟩, _⟩ :=
    bfs_loop links grow entry pages hg hclosed hne (1 + pending links pages.dedup [] + k)
      sched _ hinv (by simp only [List.length_singleton]; omega)
  rw [hq, List.append_nil] at hhist
  have hmem : ∀ u, u ∈ st.seen ↔ u ∈ entry :: st.visited.flatMap links := by
    intro u
    rw [hsv u, hhist]
    conv_lhs => rw [hvis]
    exact mem_firstOccurrences popped u
  refine ⟨st, hit, hq, ?_, ?_, ?_⟩
  · rw [crawl, h0]
    simp only []
    rw [hit]
    simp [hq]
  · intro u
    constructor
    · intro hu
      exact yielded_reachable (siteOf links) entry st.seen
        (iterations_yielded 1 (siteOf links) grow entry sched _ _ st h0 hit).1 u hu
    · intro hr
      induction hr with
      | start => exact (hmem entry).2 (by simp)
      | step u v l _ hl hv ih =>
        have hl' : l = links u := by
          simp only [siteOf, Option.some.injEq] at hl
          exact hl.symm
        have hu : u ∈ st.visited := (hsv u).1 ih
        refine (hmem v).2 (List.mem_cons_of_mem _ ?_)
        exact List.mem_flatMap.2 ⟨u, hu, hl' ▸ hv⟩
  · conv_lhs => rw [hvis]
    rw [hhist]

/-- C17, witness: the end-to-end scenario with one worker, which dispatches `A`,
`B`, `C`, `D` in this order. -/
theorem one_worker_breadth_first_witness :
    (∃ n, ∀ (sched : List (List Nat)) (k : Nat), ∃ st,
      iterations 1 (siteOf linksABCD) growDouble sched (n + k)
        { seen := [], queue := ["A"], cap := 10000, visited := [] } = some st ∧
      st.queue = [] ∧
      crawl 1 (siteOf linksABCD) growDouble "A" sched (n + k) = Exit.sitemap st.seen ∧
      (∀ u, u ∈ st.seen ↔ Reachable (siteOf linksABCD) "A" u) ∧
      st.visited = firstOccurrences ("A" :: st.visited.flatMap linksABCD)) ∧
    iterations 1 (siteOf linksABCD) growDouble [] 7
        { seen := [], queue := ["A"], cap := 10000, visited := [] } =
      some { seen := ["D", "C", "B", "A"], queue := [], cap := 9994,
             visited := ["A", "B", "C", "D"] } ∧
    firstOccurrences ("A" :: ["A", "B", "C", "D"].flatMap linksABCD) =
      ["A", "B", "C", "D"] :=
  ⟨one_worker_breadth_first linksABCD growDouble "A" ["A", "B", "C", "D"]
      (fun c n => by simp [growDouble]) (by decide) (by decide) (by decide),
   by decide, by decide⟩

/-! ## The claims on `cleanText` -/

/-- C10, counterexample: a tab between two words is white space, and `cleanText`
leaves it as it is. -/
theorem cleanText_keeps_tab :
    isSpace '\t' = true ∧ cleanText "a\tb" = "a\tb" := by
  decide

/-- C10 (amended): for every string, the result of `cleanText` has no leading
and no trailing white space, and every run of white space that holds at least one
space character and stands between two words is exactly one space character in
the result. -/
theorem cleanText_normalizes (s : String) :
    (∀ c, (cleanText s).data.head? = some c → isSpace c = false) ∧
    (∀ c, (cleanText s).data.getLast? = some c → isSpace c = false) ∧
    (∀ u w v : String, s = u ++ w ++ v → (∀ c ∈ w.data, isSpace c = true) →
      ' ' ∈ w.data → (∃ c ∈ u.data, isSpace c = false) →
      (∃ c ∈ v.data, isSpace c = false) →
      cleanText s = cleanText u ++ " " ++ cleanText v) := by
  refine ⟨fun c h => cleanChars_head s.data c h, fun c h => cleanChars_getLast s.data c h, ?_⟩
  intro u w v hs hw hsp hu hv
  subst hs
  apply String.ext
  simp only [cleanText, String.data_append]
  rw [cleanChars_run u.data w.data v.data hw hsp hu hv]
  simp

/-- C10 (amended), witness: a run of a space, a newline and a space between two
words. -/
theorem cleanText_normalizes_witness :
    cleanText "x \n y" = cleanText "x" ++ " " ++ cleanText "y" :=
  (cleanText_normalizes "x \n y").2.2 "x" " \n " "y" (by decide) (by decide) (by decide)
    ⟨'x', by decide, by decide⟩ ⟨'y', by decide, by decide⟩


theorem cleanParts_eq_filter (L : List (List Char)) :
    cleanParts L = (L.map TrimSpace).filter (fun p => !p.isEmpty) := by
  induction L with
  | nil => simp [cleanParts]
  | cons p L ih =>
    rw [cleanParts_cons, ih]
    cases h : TrimSpace p with
    | nil => simp [h]
    | cons a t => simp [h]

theorem Join_eq_intercalate (sep : Char) (L : List (List Char)) :
    Join sep L = [sep].intercalate L := by
  induction L with
  | nil => simp [Join, List.intercalate]
  | cons p L ih =>
    cases L with
    | nil => simp [Join, List.intercalate]
    | cons q L =>
      simp only [Join, ih]
      simp [List.intercalate, List.intersperse]

/-- C11: for every string, `cleanText` returns what the specification words:
the pieces of the split on the space character, each trimmed, without the empty
ones, joined with single spaces; and the example of the specification gives
`Something in a span`. -/
theorem cleanText_eq_specCleanText :
    (∀ s : String, cleanText s = specCleanText s) ∧
    cleanText "  Something \n in   a span " = "Something in a span" := by
  refine ⟨fun s => ?_, by decide⟩
  simp only [cleanText, specCleanText, cleanChars, cleanParts_eq_filter, Join_eq_intercalate]

theorem not_mem_of_mem_split (sep : Char) (s : List Char) :
    ∀ p ∈ split sep s, sep ∉ p := by
  induction s with
  | nil => simp [split]
  | cons d s ih =>
    intro p hp
    obtain ⟨x, A, hs⟩ := split_eq_cons sep s
    rw [hs] at ih
    by_cases hd : d = sep
    · subst hd
      rw [split_cons_sep, hs] at hp
      rcases List.mem_cons.1 hp with rfl | hp
      · simp
      · exact ih p hp
    · rw [split_cons_ne sep d s x A hd hs] at hp
      rcases List.mem_cons.1 hp with rfl | hp
      · intro hmem
        rcases List.mem_cons.1 hmem with h | h
        · exact hd h.symm
        · exact ih x (by simp) h
      · exact ih p (List.mem_cons_of_mem _ hp)

theorem split_of_not_mem (sep : Char) (p : List Char) (h : sep ∉ p) : split sep p = [p] := by
  induction p with
  | nil => simp [split]
  | cons c p ih =>
    have hc : c ≠ sep := fun e => h (by simp [e])
    have hp : sep ∉ p := fun e => h (List.mem_cons_of_mem _ e)
    exact split_cons_ne sep c p p [] hc (ih hp)

theorem split_Join (sep : Char) (L : List (List Char)) (hne : L ≠ [])
    (hL : ∀ p ∈ L, sep ∉ p) : split sep (Join sep L) = L := by
  induction L with
  | nil => exact absurd rfl hne
  | cons p L ih =>
    cases L with
    | nil => simpa [Join] using split_of_not_mem sep p (hL p (by simp))
    | cons q L =>
      have h1 := ih (by simp) (fun r hr => hL r (List.mem_cons_of_mem _ hr))
      simp only [Join]
      rw [split_append_sep, split_of_not_mem sep p (hL p (by simp)), h1]
      rfl

theorem mem_of_mem_TrimSpace (p : List Char) (c : Char) (h : c ∈ TrimSpace p) : c ∈ p := by
  unfold TrimSpace trimRight at h
  exact List.dropWhile_subset isSpace ((List.rdropWhile_prefix isSpace _).subset h)

theorem TrimSpace_eq_self (q : List Char) (hne : q ≠ [])
    (hh : ∀ c, q.head? = some c → isSpace c = false)
    (hl : ∀ c, q.getLast? = some c → isSpace c = false) : TrimSpace q = q := by
  have h1 : q.dropWhile isSpace = q := by
    cases q with
    | nil => rfl
    | cons a t =>
      have := hh a (by simp)
      simp [List.dropWhile, this]
  unfold TrimSpace trimRight
  rw [h1, List.rdropWhile_eq_self_iff]
  intro hq
  have := hl (q.getLast hq) (List.getLast?_eq_getLast _ hq)
  simp [this]

theorem cleanParts_fixed (L : List (List Char))
    (h : ∀ q ∈ L, q ≠ [] ∧ TrimSpace q = q) : cleanParts L = L := by
  induction L with
  | nil => simp [cleanParts]
  | cons p L ih =>
    obtain ⟨h1, h2⟩ := h p (by simp)
    rw [cleanParts_cons, h2, ih (fun q hq => h q (List.mem_cons_of_mem _ hq))]
    simp [h1]

theorem cleanChars_idempotent (s : List Char) : cleanChars (cleanChars s) = cleanChars s := by
  unfold cleanChars
  by_cases hL : cleanParts (split ' ' s) = []
  · simp [hL, Join, split, cleanParts, TrimSpace, trimRight]
  · have hsep : ∀ p ∈ cleanParts (split ' ' s), ' ' ∉ p := by
      intro p hp hmem
      rw [cleanParts_eq_filter] at hp
      obtain ⟨hp1, _⟩ := List.mem_filter.1 hp
      obtain ⟨q, hq, rfl⟩ := List.mem_map.1 hp1
      exact not_mem_of_mem_split ' ' s q hq (mem_of_mem_TrimSpace q ' ' hmem)
    rw [split_Join ' ' _ hL hsep, cleanParts_fixed]
    intro q hq
    obtain ⟨h1, h2, h3⟩ := cleanParts_trimmed _ q hq
    exact ⟨h1, TrimSpace_eq_self q h1 h2 h3⟩

/-- C19: `cleanText` is idempotent: for every string `s`,
`cleanText (cleanText s) = cleanText s`. -/
theorem cleanText_idempotent (s : String) : cleanText (cleanText s) = cleanText s := by
  simp only [cleanText, cleanChars_idempotent]

end Gophercises
